import Mathlib

/-!
Verification of the chunking / summarization core of
`src/skills/summarize-note/scripts/summarize_note.py`.

Texts are modelled as `List Char`.  Python string primitives (`str.strip`,
`str.split`, `str.replace`, slicing) are given executable shallow embeddings
below; each definition follows the Python semantics of the corresponding
call in the source file.
-/

set_option maxRecDepth 10000

/-- The ASCII whitespace characters recognized by Python's `str.strip` and
by the regex class `\s` (the source only manipulates ASCII whitespace). -/
def pyWs (c : Char) : Bool :=
  c == ' ' || c == '\t' || c == '\n' || c == '\r' || c == '\x0b' || c == '\x0c'

/-- Drop leading whitespace (first half of Python `str.strip`). -/
def stripStart (s : List Char) : List Char := s.dropWhile pyWs

/-- Drop trailing whitespace (second half of Python `str.strip`). -/
def stripEnd (s : List Char) : List Char := (s.reverse.dropWhile pyWs).reverse

/-- Python `str.strip()`. -/
def pyStrip (s : List Char) : List Char := stripEnd (stripStart s)

/-- Split a string at the first occurrence of `sep`: returns the part before
and the part after, or `none` when `sep` does not occur.  Models the scan
performed by Python's `str.split` / the `in` operator. -/
def splitFirst (sep : List Char) : List Char → Option (List Char × List Char)
  | [] => none
  | c :: rest =>
    if sep.isPrefixOf (c :: rest) then some ([], (c :: rest).drop sep.length)
    else
      match splitFirst sep rest with
      | none => none
      | some (pre, post) => some (c :: pre, post)

/-- Python's `sep in text` (substring test). -/
def containsSub (sep s : List Char) : Bool := (splitFirst sep s).isSome

/-- Python `sep.join(parts)`. -/
def joinSep (sep : List Char) : List (List Char) → List Char
  | [] => []
  | [x] => x
  | x :: xs => x ++ sep ++ joinSep sep xs

/-- Fuel-bounded worker for `pySplit`.  Each split consumes at least one
character of the scanned string, so fuel `s.length` always suffices (this is
proved below); the fuel only makes the recursion structural. -/
def pySplitGo (sep : List Char) : Nat → List Char → List (List Char)
  | 0, s => [s]
  | fuel + 1, s =>
    match splitFirst sep s with
    | none => [s]
    | some (pre, post) => pre :: pySplitGo sep fuel post

/-- Python `text.split(sep)` for a non-empty separator: split at every
non-overlapping occurrence, left to right.  (Python raises on an empty
separator; the source only ever passes non-empty separators.) -/
def pySplit (sep s : List Char) : List (List Char) := pySplitGo sep s.length s

/-- Python `s.replace(old, new)` for non-empty `old`. -/
def pyReplace (old new s : List Char) : List Char := joinSep new (pySplit old s)

/-- Fuel-bounded worker for `chunksEvery`; fuel `s.length` suffices for any
positive width `n`. -/
def chunksEveryGo (n : Nat) : Nat → List Char → List (List Char)
  | _, [] => []
  | 0, _ :: _ => []
  | fuel + 1, c :: rest => (c :: rest).take n :: chunksEveryGo n fuel ((c :: rest).drop n)

/-- The slices `text[i : i + n]` for `i in range(0, len(text), n)`, as used by
the hard-cut fallback.  (Python raises `ValueError` when `n = 0`; all claims
assume a positive chunk size.) -/
def chunksEvery (n : Nat) (s : List Char) : List (List Char) := chunksEveryGo n s.length s

/-- The hard-cut fallback of `split_text_recursively` (lines 179-185):
cut into `chunk_size`-wide slices, strip each, keep the non-empty ones. -/
def hardCut (cs : Nat) (s : List Char) : List (List Char) :=
  ((chunksEvery cs s).map pyStrip).filter (fun p => !p.isEmpty)

/-- The greedy accumulation loop of `split_text_recursively` (lines 192-210).
State is `(chunks, current, current_len)`; `recur` performs the recursive
call with the remaining separators for an oversized part. -/
def greedyFold (cs : Nat) (sep : List Char) (recur : List Char → List (List Char)) :
    List (List Char) → List (List Char) × List (List Char) × Nat →
    List (List Char) × List (List Char) × Nat
  | [], st => st
  | part :: ps, (chunks, cur, curLen) =>
    let added := part.length + (if cur.isEmpty then 0 else sep.length)
    if curLen + added ≤ cs then
      greedyFold cs sep recur ps (chunks, cur ++ [part], curLen + added)
    else
      let chunks1 := if cur.isEmpty then chunks else chunks ++ [pyStrip (joinSep sep cur)]
      if cs < part.length then
        greedyFold cs sep recur ps (chunks1 ++ recur part, [], 0)
      else
        greedyFold cs sep recur ps (chunks1, [part], part.length)

/-- The final flush of `split_text_recursively` (lines 212-215). -/
def finishGreedy (sep : List Char) (st : List (List Char) × List (List Char) × Nat) :
    List (List Char) :=
  match st with
  | (chunks, cur, _) =>
    if cur.isEmpty then chunks
    else
      let piece := pyStrip (joinSep sep cur)
      if piece.isEmpty then chunks else chunks ++ [piece]

/-- The function `split_text_recursively(text, chunk_size, separators)` (lines 155-217).
The Python loop "pick the first separator that appears in the text" is
realized by the last branch: when the head separator does not occur, the
call behaves exactly as the call with the tail of the list (the remaining
suffix passed to the recursive call is the same in both).  `remaining =
separators[separators.index(sep) + 1:]` equals the tail after the scan
position, because the scan picks the first occurrence of that string in the
list. -/
def split_text_recursively (cs : Nat) : List (List Char) → List Char → List (List Char)
  | [], text =>
    if text.length ≤ cs then (if (pyStrip text).isEmpty then [] else [text])
    else hardCut cs text
  | s :: rest, text =>
    if text.length ≤ cs then (if (pyStrip text).isEmpty then [] else [text])
    else if containsSub s text then
      finishGreedy s
        (greedyFold cs s (split_text_recursively cs rest) (pySplit s text) ([], [], 0))
    else split_text_recursively cs rest text

/-- The default separator list `["\n\n", "\n", ". ", " "]`. -/
def defaultSeps : List (List Char) := ["\n\n".data, "\n".data, ". ".data, " ".data]

/-- The scan "pick the first separator that appears in the text"
(lines 171-176), together with `remaining = separators[separators.index(sep)
+ 1:]` (line 202): returns the chosen separator and the remaining suffix. -/
def pickSep : List (List Char) → List Char → Option (List Char × List (List Char))
  | [], _ => none
  | s :: rest, text => if containsSub s text then some (s, rest) else pickSep rest text

/-- The loop `greedyFold` lifted to a fallible recursive call, used by the
fuel-bounded variant of the splitter below. -/
def greedyFoldO (cs : Nat) (sep : List Char) (recur : List Char → Option (List (List Char))) :
    List (List Char) → List (List Char) × List (List Char) × Nat →
    Option (List (List Char) × List (List Char) × Nat)
  | [], st => some st
  | part :: ps, (chunks, cur, curLen) =>
    let added := part.length + (if cur.isEmpty then 0 else sep.length)
    if curLen + added ≤ cs then greedyFoldO cs sep recur ps (chunks, cur ++ [part], curLen + added)
    else
      let chunks1 := if cur.isEmpty then chunks else chunks ++ [pyStrip (joinSep sep cur)]
      if cs < part.length then
        match recur part with
        | none => none
        | some sub => greedyFoldO cs sep recur ps (chunks1 ++ sub, [], 0)
      else greedyFoldO cs sep recur ps (chunks1, [part], part.length)

/-- The splitter with an explicit recursion-depth budget: `fuel`
is decremented exactly at each Python-level recursive call (oversized part,
remaining separators).  `none` means the budget was exhausted.  Used to
prove that the recursion depth is bounded by the length of the separator
list. -/
def splitRecFuel (cs : Nat) : Nat → List (List Char) → List Char → Option (List (List Char))
  | 0, _, _ => none
  | fuel + 1, seps, text =>
    if text.length ≤ cs then some (if (pyStrip text).isEmpty then [] else [text])
    else
      match pickSep seps text with
      | none => some (hardCut cs text)
      | some (s, rest) =>
        (greedyFoldO cs s (splitRecFuel cs fuel rest) (pySplit s text) ([], [], 0)).map
          (finishGreedy s)

/-- A markdown section: `Section` dataclass (lines 94-98).  `headers` is the
breadcrumb dict in insertion order; the Python key `h<level>` is modelled
by the level number itself (the two are in bijection). -/
structure Section where
  content : List Char
  headers : List (Nat × List Char)
deriving DecidableEq

/-- The heading-line test of line 124 (a run of one to six `#`, one or more
whitespace characters, then at least one further character) together with
the title extraction `m.group(2).strip()`.

Equivalence with the regex (lines have no newline, `.` matches everything
else): group 1 can only be the maximal run of `#` characters, because any
shorter prefix of the run is followed by `#`, which `\s+` rejects.  So the
line matches iff the `#`-run has length 1..6 and is followed by a
whitespace character and at least one further character (`\s+` can always
give characters back to `.+`, which also matches whitespace).  In every
match, `group(2).strip()` equals the rest of the line after the run with
surrounding whitespace stripped. -/
def parseHeading (line : List Char) : Option (Nat × List Char) :=
  let k := (line.takeWhile (fun c => c == '#')).length
  match line.drop k with
  | c :: d :: rest =>
    if 1 ≤ k ∧ k ≤ 6 ∧ pyWs c then some (k, pyStrip (c :: d :: rest)) else none
  | _ => none

/-- Setting the `h<level>` key of `current_headers` (line 135): a Python dict updates
an existing key in place and appends a new key at the end. -/
def headerSet (hs : List (Nat × List Char)) (lv : Nat) (t : List Char) :
    List (Nat × List Char) :=
  if hs.any (fun p => p.1 == lv) then hs.map (fun p => if p.1 == lv then (lv, t) else p)
  else hs ++ [(lv, t)]

/-- The clearing loop of lines 136-138: pop `h<lvl>` for every tracked level
strictly deeper than the new heading. -/
def headerPop (levels : List Nat) (lv : Nat) (hs : List (Nat × List Char)) :
    List (Nat × List Char) :=
  hs.filter (fun p => !(levels.contains p.1 && decide (lv < p.1)))

/-- Flushing the accumulated lines into a section (lines 129-131 and
144-146): join with newlines, strip, drop when empty. -/
def sbFlush (secs : List Section) (hdrs : List (Nat × List Char)) (cur : List (List Char)) :
    List Section :=
  let body := pyStrip (joinSep ['\n'] cur)
  if body.isEmpty then secs else secs ++ [⟨body, hdrs⟩]

/-- One iteration of the line loop of `split_by_markdown_headers`
(lines 123-141).  State: `(sections, current_headers, current_lines)`. -/
def sbStep (levels : List Nat)
    (st : List Section × List (Nat × List Char) × List (List Char)) (line : List Char) :
    List Section × List (Nat × List Char) × List (List Char) :=
  match st with
  | (secs, hdrs, cur) =>
    match parseHeading line with
    | some (lv, t) =>
      if levels.contains lv then
        (sbFlush secs hdrs cur, headerPop levels lv (headerSet hdrs lv t), [])
      else (secs, hdrs, cur ++ [line])
    | none => (secs, hdrs, cur ++ [line])

/-- The function `split_by_markdown_headers(text, levels)` (lines 101-148). -/
def split_by_markdown_headers (text : List Char) (levels : List Nat) : List Section :=
  match (pySplit ['\n'] text).foldl (sbStep levels) ([], [], []) with
  | (secs, hdrs, cur) => sbFlush secs hdrs cur

/-- Modelled from the spec: "breadcrumb ... equals the most recent heading
at [that level] preceding it in document order; deeper levels reset
whenever a shallower heading recurs".  The tracked headings seen so far are
given most-recent-first; scanning backwards, the first heading at exactly
level `l` supplies the title, and any strictly shallower heading met first
resets the level. -/
def recentAt : List (Nat × List Char) → Nat → Option (List Char)
  | [], _ => none
  | (lv, t) :: older, l =>
    if lv = l then some t else if lv < l then none else recentAt older l

/-- Modelled from the spec: the breadcrumb after a given document-order list
of tracked headings, one entry per tracked level that is currently set,
listed shallow-to-deep. -/
def specHeaders (levels : List Nat) (heads : List (Nat × List Char)) :
    List (Nat × List Char) :=
  levels.filterMap (fun l => (recentAt heads.reverse l).map (fun t => (l, t)))

/-- A line that is a heading at a tracked level. -/
def trackedOf (levels : List Nat) (line : List Char) : Option (Nat × List Char) :=
  match parseHeading line with
  | some (lv, t) => if levels.contains lv then some (lv, t) else none
  | none => none

/-- Modelled from the spec: a section's content is the newline-joined text
between headings, stripped, and dropped when empty. -/
def specFlush (levels : List Nat) (heads : List (Nat × List Char)) (acc : List (List Char)) :
    List Section :=
  let body := pyStrip (joinSep ['\n'] acc)
  if body.isEmpty then [] else [⟨body, specHeaders levels heads⟩]

/-- Modelled from the spec: cut the line list at each tracked heading; each
segment becomes a section whose breadcrumb is determined declaratively from
all tracked headings that precede it. -/
def specGo (levels : List Nat) (heads : List (Nat × List Char)) (acc : List (List Char)) :
    List (List Char) → List Section
  | [] => specFlush levels heads acc
  | line :: ls =>
    match trackedOf levels line with
    | some (lv, t) => specFlush levels heads acc ++ specGo levels (heads ++ [(lv, t)]) [] ls
    | none => specGo levels heads (acc ++ [line]) ls

/-- Modelled from the spec: the sections of a document, with declaratively
specified breadcrumbs (to be compared with `split_by_markdown_headers`). -/
def sectionsSpec (levels : List Nat) (text : List Char) : List Section :=
  specGo levels [] [] (pySplit ['\n'] text)

/-- The renderer `_section_text(sec)` (lines 224-230): breadcrumb prefix `[a > b]\n`
followed by the content. -/
def _section_text (sec : Section) : List Char :=
  if sec.headers.isEmpty then sec.content
  else ('[' :: joinSep " > ".data (sec.headers.map Prod.snd)) ++ (']' :: '\n' :: sec.content)

/-- The `"\n\n"` joiner of the section-merging loop (lines 258, 266, 274),
whose two characters are accounted for by `current_len += len(text) + 2`. -/
def sepNN : List Char := "\n\n".data

/-- One iteration of the section-merging loop of `split_note`
(lines 250-271).  State: `(chunks, current_parts, current_len)`. -/
def split_note_step (cs : Nat) (st : List (List Char) × List (List Char) × Nat)
    (sec : Section) : List (List Char) × List (List Char) × Nat :=
  match st with
  | (chunks, parts, curLen) =>
    let text := _section_text sec
    if (pyStrip text).isEmpty then (chunks, parts, curLen)
    else if cs < text.length then
      ((if parts.isEmpty then chunks else chunks ++ [joinSep sepNN parts]) ++
        split_text_recursively cs defaultSeps text, [], 0)
    else if cs < curLen + text.length + 2 then
      ((if parts.isEmpty then chunks else chunks ++ [joinSep sepNN parts]),
        [text], text.length)
    else (chunks, parts ++ [text], curLen + text.length + 2)

/-- The function `split_note(body, chunk_size)` (lines 233-276). -/
def split_note (body : List Char) (cs : Nat) : List (List Char) :=
  let sections := split_by_markdown_headers body [1, 2, 3]
  if sections.isEmpty then split_text_recursively cs defaultSeps body
  else
    match sections.foldl (split_note_step cs) ([], [], 0) with
    | (chunks, parts, _) =>
      (if parts.isEmpty then chunks else chunks ++ [joinSep sepNN parts]).filter
        (fun c => !(pyStrip c).isEmpty)

/-- Fuel-bounded worker for `removeThink`; fuel `s.length` suffices. -/
def removeThinkGo : Nat → List Char → List Char
  | 0, s => s
  | _ + 1, [] => []
  | fuel + 1, c :: rest =>
    if "<think>".data.isPrefixOf (c :: rest) then
      match splitFirst "</think>".data ((c :: rest).drop 7) with
      | some (_, post) => removeThinkGo fuel post
      | none => c :: rest
    else c :: removeThinkGo fuel rest

/-- The reasoning-span removal of line 329 (a DOTALL `re.sub` deleting each
occurrence of the non-greedy pattern open-tag, anything, close-tag):
scanning left to right, each `<think>` that is followed by a `</think>`
is removed together with everything up to the nearest such closer (the
non-greedy `.*?`); an unclosed `<think>` matches nothing, and once no
`</think>` remains no later match can start. -/
def removeThink (s : List Char) : List Char := removeThinkGo s.length s

/-- One conditional quote-stripping step of `clean_llm_output`
(lines 331-334): `text[1:-1]` when the text has length at least 2 and both
ends are the quote `q`. -/
def stripQuotePair (q : Char) (s : List Char) : List Char :=
  if 2 ≤ s.length ∧ s.head? = some q ∧ s.getLast? = some q then (s.drop 1).dropLast else s

/-- The function `clean_llm_output(text)` (lines 327-335). -/
def clean_llm_output (s : List Char) : List Char :=
  pyStrip (stripQuotePair '\x27' (stripQuotePair '\x22' (pyStrip (removeThink s))))

/-- The constant `MAP_PROMPT` (lines 51-59). -/
def MAP_PROMPT : List Char :=
  ("Below is a chunk from a longer markdown note. The chunk may contain one or more sections; header breadcrumbs in square brackets (e.g. \"[Topic > Subtopic]\") indicate the section hierarchy.\n\nWrite a concise summary of this chunk. Capture the main arguments, key concepts, and any concrete examples or data points. Omit boilerplate, formatting artifacts, and navigational text.\n\n---\n\x7btext\x7d\n---").data

/-- The constant `COMBINE_PROMPT` (lines 61-73). -/
def COMBINE_PROMPT : List Char :=
  ("Below are summaries of consecutive chunks from a single markdown note. Synthesize them into ONE cohesive paragraph that functions as an abstract of the entire note.\n\nRequirements:\n- The paragraph should let a reader understand the note\x27s scope, core argument or content, and key takeaways without reading the original.\n- Synthesize the chunk summaries into a unified narrative; do NOT simply concatenate or list them.\n- Keep it concise (3-6 sentences).\n\n---\n\x7btext\x7d\n---").data

/-- The constant `STUFF_PROMPT` (lines 75-87). -/
def STUFF_PROMPT : List Char :=
  ("Below is a short markdown note. Write ONE concise paragraph that functions as an abstract of the note.\n\nRequirements:\n- A reader should understand the note\x27s scope, core argument or content, and key takeaways from this paragraph alone.\n- Keep it concise (2-5 sentences). Preserve key terms and names.\n- CRITICAL: If the note body is a placeholder (e.g. \"\x7bContent\x7d\"), a stub, or contains very little substantive text, output ONLY a brief one-sentence description of what the note title refers to using your general knowledge. Do NOT expand placeholders or invent details that are not present.\n\n---\n\x7btext\x7d\n---").data

/-- The placeholder token (an opening brace, `text`, a closing brace) that the prompt-filling `.replace` calls substitute. -/
def textSlot : List Char := "\x7btext\x7d".data

/-- The helper `_call_ollama` (lines 338-349): the generation client is modelled as a
pure function `gen` from the filled user prompt to the raw response (the
system message is a fixed constant); the response is cleaned. -/
def callOllama (gen : List Char → List Char) (prompt : List Char) : List Char :=
  clean_llm_output (gen prompt)

/-- Model of `asyncio.gather(*tasks)` (line 366).  `order` is the completion
schedule: the list of task indices in the order in which the (pure,
independent) tasks happen to finish.  Completion produces a log of
`(index, value)` pairs in completion order; `gather` then delivers slot `i`
of its result from the entry for task `i`, never from completion position
`i`. -/
def gatherModel (tasks : List (List Char)) (order : List Nat) : List (List Char) :=
  let log := order.map (fun i => (i, tasks.getD i []))
  (List.range tasks.length).map
    (fun i => ((log.find? (fun p => p.1 == i)).map Prod.snd).getD [])

/-- The map step of `summarize_chunks` (lines 362-366): one `MAP_PROMPT`
call per chunk, gathered under completion order `order`. -/
def mapStepResults (gen : List Char → List Char) (order : List Nat)
    (chunks : List (List Char)) : List (List Char) :=
  gatherModel (chunks.map (fun chunk => callOllama gen (pyReplace textSlot chunk MAP_PROMPT)))
    order

/-- The reduce-step concatenation (lines 369-371):
each summary is labeled with `Section`, its 1-based position and a colon, and the labeled summaries are joined by blank lines. -/
def combinedSummaries (sums : List (List Char)) : List Char :=
  joinSep "\n\n".data
    (sums.enum.map (fun p => "Section ".data ++ (Nat.repr (p.1 + 1)).data ++ ": ".data ++ p.2))

/-- The orchestrator `summarize_chunks(client, model, chunks)` (lines 352-374). -/
def summarize_chunks (gen : List Char → List Char) (order : List Nat)
    (chunks : List (List Char)) : List Char :=
  if chunks.length = 1 then callOllama gen (pyReplace textSlot (chunks.getD 0 []) STUFF_PROMPT)
  else
    callOllama gen
      (pyReplace textSlot (combinedSummaries (mapStepResults gen order chunks)) COMBINE_PROMPT)

/-- The function `extract_frontmatter_and_body(content)` (lines 283-293).
The anchored DOTALL regex of line 285 takes the shortest `yaml_text`: it
cuts at the first newline-dashes occurrence after the opening delimiter
line, then drops one optional newline before the body.  `yaml.safe_load`
is an external library call, modelled by the parameter `parseYaml`
(`none` = parse error; a YAML `None` document maps to the empty mapping,
absorbing the or-empty-dict fallback of line 289). -/
def extract_frontmatter_and_body
    (parseYaml : List Char → Option (List (List Char × List Char))) (content : List Char) :
    Option (List (List Char × List Char)) × List Char × List Char :=
  if "---\n".data.isPrefixOf content then
    match splitFirst "\n---".data (content.drop 4) with
    | some (y, after) =>
      let body := match after with
        | '\n' :: b => b
        | _ => after
      (parseYaml y, y, body)
    | none => (none, [], content)
  else (none, [], content)

/-- The lookup `fm.get` of the summary field on the parsed mapping (line 400); string values
only (the claims under verification only concern string field values). -/
def ymGet (k : List Char) (m : List (List Char × List Char)) : List Char :=
  ((m.find? (fun p => p.1 == k)).map Prod.snd).getD []

/-- The escaping `new_summary.replace` chain of line 298: double each backslash, then escape each double-quote character. -/
def escapeVal (s : List Char) : List Char :=
  pyReplace "\"".data "\\\"".data (pyReplace "\\".data "\\\\".data s)

/-- The summary line of line 299: the key, the `[AI]` marker and the escaped value in double quotes. -/
def summaryLineOf (s : List Char) : List Char :=
  "summary: \"[AI] ".data ++ escapeVal s ++ ['\x22']

/-- The summary-field line test of line 306: the regex there ends in an
optional-whitespace group matching the empty string, so it is a plain
prefix test. -/
def isSummaryLine (l : List Char) : Bool := "summary:".data.isPrefixOf l

/-- The insertion-anchor line test of line 315: the line starts with one of the TOPIC, PRIOR, NEXT or RELATED_TO keys. -/
def isAnchorLine (l : List Char) : Bool :=
  "TOPIC:".data.isPrefixOf l || "PRIOR:".data.isPrefixOf l ||
    "NEXT:".data.isPrefixOf l || "RELATED_TO:".data.isPrefixOf l

/-- Insert the summary line before the first anchor line, or at the end
when no anchor exists (lines 312-318). -/
def insertAtAnchor (sl : List Char) : List (List Char) → List (List Char)
  | [] => [sl]
  | l :: ls => if isAnchorLine l then sl :: l :: ls else l :: insertAtAnchor sl ls

/-- The function `update_summary_in_yaml(yaml_text, new_summary)` (lines 296-320). -/
def update_summary_in_yaml (yamlText newSummary : List Char) : List Char :=
  let sl := summaryLineOf newSummary
  let lines := pySplit ['\n'] yamlText
  let newLines := lines.map (fun l => if isSummaryLine l then sl else l)
  joinSep ['\n'] (if lines.any isSummaryLine then newLines else insertAtAnchor sl newLines)

/-- The per-file result record of `process_file`: error, skip, and success
are reported through distinct shapes (`"error"` key / `"skipped"` key /
result dict with `"updated"` flag). -/
inductive FileOutcome where
  | err (msg : List Char)
  | skipped (reason oldSummary : List Char)
  | done (chunkCount : Nat) (oldSummary newSummary : List Char) (updated : Bool)
deriving DecidableEq

/-- The body of `process_file` after `extract_frontmatter_and_body`
(lines 394-438), as a function of the extraction result. -/
def process_parsed (gen : List Char → List Char) (order : List Nat)
    (t : Option (List (List Char × List Char)) × List Char × List Char)
    (cs : Nat) (dryRun : Bool) : FileOutcome × Option (List Char) :=
  match t with
  | (fmOpt, yamlText, body) =>
    match fmOpt with
    | none => (.err "No valid frontmatter found".data, none)
    | some fm =>
      if (pyStrip body).isEmpty then (.err "No content to summarize".data, none)
      else
        let oldSummary := ymGet "summary".data fm
        if !oldSummary.isEmpty && !("[AI]".data.isPrefixOf oldSummary) then
          (.skipped "Human summary exists (does not start with [AI])".data oldSummary, none)
        else
          let chunks := split_note (pyStrip body) cs
          if chunks.isEmpty then (.err "No content after splitting".data, none)
          else
            let summary := summarize_chunks gen order chunks
            let newSummary := "[AI] ".data ++ summary
            if dryRun then (.done chunks.length oldSummary newSummary false, none)
            else
              (.done chunks.length oldSummary newSummary true,
                some ("---\n".data ++ update_summary_in_yaml yamlText summary ++
                  "\n---\n".data ++ body))

/-- The function `process_file` (lines 381-438), modelled from the successful file read
on: the pair is the outcome record and the content written back (`none` =
no write).  `gen`/`order` model the generation client, `parseYaml` the YAML
library. -/
def process_file (gen : List Char → List Char) (order : List Nat)
    (parseYaml : List Char → Option (List (List Char × List Char)))
    (content : List Char) (cs : Nat) (dryRun : Bool) : FileOutcome × Option (List Char) :=
  process_parsed gen order (extract_frontmatter_and_body parseYaml content) cs dryRun

example : split_text_recursively 10 defaultSeps "abcdefghijklmno".data =
    ["abcdefghij".data, "klmno".data] := by decide

example : split_text_recursively 4 defaultSeps "\n\nXXXXX".data =
    [[], "XXXX".data, "X".data] := by decide

example : split_text_recursively 10 defaultSeps " a ".data = [" a ".data] := by decide

example : split_text_recursively 4 defaultSeps "aaaa. bbbb".data =
    ["aaaa".data, "bbbb".data] := by decide

example : split_by_markdown_headers "# A\ntext1\n## B\ntext2".data [1, 2] =
    [⟨"text1".data, [(1, "A".data)]⟩, ⟨"text2".data, [(1, "A".data), (2, "B".data)]⟩] := by
  decide

example : sectionsSpec [1, 2] "# A\ntext1\n## B\ntext2".data =
    [⟨"text1".data, [(1, "A".data)]⟩, ⟨"text2".data, [(1, "A".data), (2, "B".data)]⟩] := by
  decide

example : split_note "\n\n# AAAAAA".data 6 = [[], "#".data, "AAAAAA".data] := by decide

example : clean_llm_output "\"\x27hi\x27\"".data = "hi".data := by decide

example : removeThink "a<think>x</think>b<think>y</think>c".data = "abc".data := by decide

example :
    extract_frontmatter_and_body (fun _ => some [("summary".data, "x".data)])
      "---\nsummary: x\n---\nbody".data =
    (some [("summary".data, "x".data)], "summary: x".data, "body".data) := by decide

example : update_summary_in_yaml "title: t\nTOPIC: z".data "s".data =
    "title: t\nsummary: \"[AI] s\"\nTOPIC: z".data := by decide

example : splitRecFuel 4 5 defaultSeps "\n\nXXXXX".data =
    some [[], "XXXX".data, "X".data] := by decide

/-! ### Basic properties of the string primitives -/

theorem joinSep_cons (sep x : List Char) {xs : List (List Char)} (h : xs ≠ []) :
    joinSep sep (x :: xs) = x ++ sep ++ joinSep sep xs := by
  cases xs with
  | nil => exact absurd rfl h
  | cons y ys => rfl

theorem joinSep_concat (sep p : List Char) :
    ∀ {cur : List (List Char)}, cur ≠ [] →
      joinSep sep (cur ++ [p]) = joinSep sep cur ++ sep ++ p := by
  intro cur
  induction cur with
  | nil => intro h; exact absurd rfl h
  | cons x xs ih =>
    intro _
    cases xs with
    | nil => rfl
    | cons y ys =>
      have h2 : (y :: ys) ++ [p] ≠ [] := by simp
      rw [List.cons_append, joinSep_cons sep x h2, joinSep_cons sep x (by simp),
        ih (by simp)]
      simp [List.append_assoc]

theorem splitFirst_eq {sep : List Char} :
    ∀ {s pre post : List Char}, splitFirst sep s = some (pre, post) →
      s = pre ++ sep ++ post := by
  intro s
  induction s with
  | nil => intro pre post h; simp [splitFirst] at h
  | cons c rest ih =>
    intro pre post h
    rw [splitFirst] at h
    by_cases hp : sep.isPrefixOf (c :: rest)
    · rw [if_pos hp] at h
      obtain ⟨t, ht⟩ := List.isPrefixOf_iff_prefix.mp hp
      injection h with h'
      injection h' with h1 h2
      subst h1
      rw [← ht, List.drop_left] at h2
      subst h2
      simpa using ht.symm
    · rw [if_neg hp] at h
      cases hsf : splitFirst sep rest with
      | none => rw [hsf] at h; exact absurd h (by simp)
      | some pp =>
        obtain ⟨pre', post'⟩ := pp
        rw [hsf] at h
        injection h with h'
        injection h' with h1 h2
        subst h1; subst h2
        simpa using ih hsf

theorem splitFirst_length_lt {sep : List Char} (hsep : sep ≠ [])
    {s pre post : List Char} (h : splitFirst sep s = some (pre, post)) :
    post.length < s.length := by
  have := splitFirst_eq h
  subst this
  have : 0 < sep.length := List.length_pos.mpr hsep
  simp only [List.length_append]
  omega

theorem pySplitGo_ne_nil (sep : List Char) : ∀ (fuel : Nat) (s : List Char),
    pySplitGo sep fuel s ≠ [] := by
  intro fuel s
  cases fuel with
  | zero => simp [pySplitGo]
  | succ f =>
    rw [pySplitGo]
    cases h : splitFirst sep s with
    | none => simp
    | some pp => simp

theorem joinSep_pySplitGo (sep : List Char) : ∀ (fuel : Nat) (s : List Char),
    joinSep sep (pySplitGo sep fuel s) = s := by
  intro fuel
  induction fuel with
  | zero => intro s; rfl
  | succ f ih =>
    intro s
    rw [pySplitGo]
    cases h : splitFirst sep s with
    | none => rfl
    | some pp =>
      obtain ⟨pre, post⟩ := pp
      rw [joinSep_cons sep pre (pySplitGo_ne_nil sep f post), ih post]
      exact (splitFirst_eq h).symm

theorem joinSep_pySplit (sep s : List Char) : joinSep sep (pySplit sep s) = s :=
  joinSep_pySplitGo sep s.length s

theorem flatten_chunksEveryGo (n : Nat) (hn : 0 < n) :
    ∀ (fuel : Nat) (s : List Char), s.length ≤ fuel →
      (chunksEveryGo n fuel s).flatten = s := by
  intro fuel
  induction fuel with
  | zero =>
    intro s hs
    have : s = [] := List.length_eq_zero.mp (Nat.le_zero.mp hs)
    subst this
    rfl
  | succ f ih =>
    intro s hs
    cases s with
    | nil => rfl
    | cons c rest =>
      have hd : ((c :: rest).drop n).length ≤ f := by
        rw [List.length_drop]
        simp only [List.length_cons] at hs ⊢
        omega
      rw [chunksEveryGo, List.flatten_cons, ih ((c :: rest).drop n) hd]
      exact List.take_append_drop n (c :: rest)

theorem chunksEveryGo_length (n : Nat) :
    ∀ (fuel : Nat) (s p : List Char), p ∈ chunksEveryGo n fuel s → p.length ≤ n := by
  intro fuel
  induction fuel with
  | zero =>
    intro s p hp
    cases s with
    | nil => simp [chunksEveryGo] at hp
    | cons c rest => simp [chunksEveryGo] at hp
  | succ f ih =>
    intro s p hp
    cases s with
    | nil => simp [chunksEveryGo] at hp
    | cons c rest =>
      rw [chunksEveryGo] at hp
      rcases List.mem_cons.mp hp with h | h
      · subst h; simp [List.length_take]
      · exact ih _ p h

theorem length_dropWhile_le (p : Char → Bool) (l : List Char) :
    (l.dropWhile p).length ≤ l.length :=
  (List.dropWhile_suffix p).sublist.length_le

theorem pyStrip_length_le (s : List Char) : (pyStrip s).length ≤ s.length := by
  unfold pyStrip stripEnd stripStart
  calc ((s.dropWhile pyWs).reverse.dropWhile pyWs).reverse.length
      = ((s.dropWhile pyWs).reverse.dropWhile pyWs).length := List.length_reverse _
    _ ≤ (s.dropWhile pyWs).reverse.length := length_dropWhile_le _ _
    _ = (s.dropWhile pyWs).length := List.length_reverse _
    _ ≤ s.length := length_dropWhile_le _ _

theorem filter_dropWhile {P : Char → Bool} (hP : ∀ c, pyWs c = true → P c = false)
    (s : List Char) : (s.dropWhile pyWs).filter P = s.filter P := by
  induction s with
  | nil => rfl
  | cons c rest ih =>
    rw [List.dropWhile_cons]
    by_cases h : pyWs c = true
    · rw [if_pos h, ih, List.filter_cons, hP c h]
      simp
    · rw [if_neg h]

theorem filter_pyStrip {P : Char → Bool} (hP : ∀ c, pyWs c = true → P c = false)
    (s : List Char) : (pyStrip s).filter P = s.filter P := by
  unfold pyStrip stripEnd stripStart
  rw [List.filter_reverse, filter_dropWhile hP, List.filter_reverse,
    List.reverse_reverse, filter_dropWhile hP]

theorem filter_of_pyStrip_nil {P : Char → Bool} (hP : ∀ c, pyWs c = true → P c = false)
    {s : List Char} (h : pyStrip s = []) : s.filter P = [] := by
  rw [← filter_pyStrip hP, h]
  rfl

theorem dropWhile_dropWhile (p : Char → Bool) (l : List Char) :
    (l.dropWhile p).dropWhile p = l.dropWhile p := by
  induction l with
  | nil => rfl
  | cons c rest ih =>
    rw [List.dropWhile_cons]
    by_cases h : p c = true
    · rw [if_pos h, ih]
    · rw [if_neg h, List.dropWhile_cons, if_neg h]

theorem head_dropWhile_false (p : Char → Bool) :
    ∀ {l : List Char} {c : Char}, (l.dropWhile p).head? = some c → p c = false := by
  intro l
  induction l with
  | nil => intro c h; simp [List.dropWhile] at h
  | cons a rest ih =>
    intro c h
    rw [List.dropWhile_cons] at h
    by_cases hp : p a = true
    · rw [if_pos hp] at h; exact ih h
    · rw [if_neg hp] at h
      simp at h
      subst h
      simpa using hp

theorem stripEnd_prefix (s : List Char) : stripEnd s <+: s := by
  have h1 : s.reverse.dropWhile pyWs <:+ s.reverse := List.dropWhile_suffix pyWs
  have h2 := List.reverse_prefix.mpr h1
  rwa [List.reverse_reverse] at h2

theorem stripStart_stripEnd_stripStart (s : List Char) :
    stripStart (stripEnd (stripStart s)) = stripEnd (stripStart s) := by
  cases h : stripEnd (stripStart s) with
  | nil => rfl
  | cons c u =>
    have hpre : (c :: u) <+: stripStart s := h ▸ stripEnd_prefix (stripStart s)
    obtain ⟨t, ht⟩ := hpre
    have hc : (stripStart s).head? = some c := by
      rw [← ht]; rfl
    have hcf : pyWs c = false := head_dropWhile_false pyWs hc
    rw [stripStart, List.dropWhile_cons, if_neg (by simp [hcf])]

theorem pyStrip_idem (s : List Char) : pyStrip (pyStrip s) = pyStrip s := by
  unfold pyStrip
  rw [stripStart_stripEnd_stripStart s]
  unfold stripEnd stripStart
  rw [List.reverse_reverse, dropWhile_dropWhile]

/-! ### The greedy accumulation loop: length bound, trimmedness, content -/

theorem greedyFold_bound {cs : Nat} {sep : List Char} {recur : List Char → List (List Char)}
    (hrec : ∀ p, cs < p.length → ∀ c ∈ recur p, c.length ≤ cs) :
    ∀ (parts chunks cur : List (List Char)) (curLen : Nat),
      (∀ c ∈ chunks, c.length ≤ cs) → curLen = (joinSep sep cur).length → curLen ≤ cs →
      ∀ chunks' cur' curLen',
        greedyFold cs sep recur parts (chunks, cur, curLen) = (chunks', cur', curLen') →
        (∀ c ∈ chunks', c.length ≤ cs) ∧ curLen' = (joinSep sep cur').length ∧ curLen' ≤ cs := by
  intro parts
  induction parts with
  | nil =>
    intro chunks cur curLen h1 h2 h3 chunks' cur' curLen' heq
    rw [greedyFold] at heq
    injection heq with e1 e2
    injection e2 with e2 e3
    subst e1; subst e2; subst e3
    exact ⟨h1, h2, h3⟩
  | cons part ps ih =>
    intro chunks cur curLen h1 h2 h3 chunks' cur' curLen' heq
    rw [greedyFold] at heq
    simp only at heq
    by_cases hadd : curLen + (part.length + if cur.isEmpty then 0 else sep.length) ≤ cs
    · rw [if_pos hadd] at heq
      refine ih _ _ _ h1 ?_ hadd _ _ _ heq
      cases cur with
      | nil =>
        simp only [List.isEmpty_nil, if_true] at hadd ⊢
        simp only [joinSep] at h2
        simp [joinSep, h2]
      | cons x xs =>
        simp only [List.isEmpty_cons, if_neg] at hadd ⊢
        rw [joinSep_concat sep part (by simp), List.length_append, List.length_append, ← h2]
        simp
        omega
    · rw [if_neg hadd] at heq
      have hchunks1 : ∀ c ∈ (if cur.isEmpty then chunks
          else chunks ++ [pyStrip (joinSep sep cur)]), c.length ≤ cs := by
        by_cases hc : cur.isEmpty
        · rw [if_pos hc]; exact h1
        · rw [if_neg hc]
          intro c hcmem
          rcases List.mem_append.mp hcmem with h | h
          · exact h1 c h
          · simp only [List.mem_singleton] at h
            subst h
            calc (pyStrip (joinSep sep cur)).length ≤ (joinSep sep cur).length :=
                  pyStrip_length_le _
              _ ≤ cs := h2 ▸ h3
      by_cases hbig : cs < part.length
      · rw [if_pos hbig] at heq
        refine ih _ _ _ ?_ (by simp [joinSep]) (Nat.zero_le cs) _ _ _ heq
        intro c hcmem
        rcases List.mem_append.mp hcmem with h | h
        · exact hchunks1 c h
        · exact hrec part hbig c h
      · rw [if_neg hbig] at heq
        refine ih _ _ _ hchunks1 (by simp [joinSep]) (Nat.le_of_not_lt hbig) _ _ _ heq

theorem finishGreedy_bound {cs : Nat} {sep : List Char}
    {chunks cur : List (List Char)} {curLen : Nat}
    (h1 : ∀ c ∈ chunks, c.length ≤ cs) (h2 : curLen = (joinSep sep cur).length)
    (h3 : curLen ≤ cs) :
    ∀ c ∈ finishGreedy sep (chunks, cur, curLen), c.length ≤ cs := by
  intro c hc
  rw [finishGreedy] at hc
  simp only at hc
  by_cases hcur : cur.isEmpty
  · rw [if_pos hcur] at hc; exact h1 c hc
  · rw [if_neg hcur] at hc
    by_cases hpiece : (pyStrip (joinSep sep cur)).isEmpty
    · rw [if_pos hpiece] at hc; exact h1 c hc
    · rw [if_neg hpiece] at hc
      rcases List.mem_append.mp hc with h | h
      · exact h1 c h
      · simp only [List.mem_singleton] at h
        subst h
        calc (pyStrip (joinSep sep cur)).length ≤ (joinSep sep cur).length := pyStrip_length_le _
          _ ≤ cs := h2 ▸ h3

theorem hardCut_bound {cs : Nat} {text : List Char} :
    ∀ c ∈ hardCut cs text, c.length ≤ cs := by
  intro c hc
  simp only [hardCut, List.mem_filter, List.mem_map] at hc
  obtain ⟨⟨p, hp, hpc⟩, _⟩ := hc
  subst hpc
  calc (pyStrip p).length ≤ p.length := pyStrip_length_le _
    _ ≤ cs := chunksEveryGo_length cs text.length text p hp

theorem split_text_recursively_length_le (cs : Nat) :
    ∀ (seps : List (List Char)) (text : List Char),
      ∀ c ∈ split_text_recursively cs seps text, c.length ≤ cs := by
  intro seps
  induction seps with
  | nil =>
    intro text c hc
    rw [split_text_recursively] at hc
    by_cases hlen : text.length ≤ cs
    · rw [if_pos hlen] at hc
      by_cases hemp : (pyStrip text).isEmpty
      · rw [if_pos hemp] at hc; simp at hc
      · rw [if_neg hemp] at hc
        simp only [List.mem_singleton] at hc
        subst hc; exact hlen
    · rw [if_neg hlen] at hc
      exact hardCut_bound c hc
  | cons s rest ih =>
    intro text c hc
    rw [split_text_recursively] at hc
    by_cases hlen : text.length ≤ cs
    · rw [if_pos hlen] at hc
      by_cases hemp : (pyStrip text).isEmpty
      · rw [if_pos hemp] at hc; simp at hc
      · rw [if_neg hemp] at hc
        simp only [List.mem_singleton] at hc
        subst hc; exact hlen
    · rw [if_neg hlen] at hc
      by_cases hcont : containsSub s text
      · rw [if_pos hcont] at hc
        obtain ⟨⟨chunks', cur', curLen'⟩, heq⟩ :
            ∃ st, greedyFold cs s (split_text_recursively cs rest) (pySplit s text)
              ([], [], 0) = st := ⟨_, rfl⟩
        have hinv := greedyFold_bound (fun p _ => ih p) (pySplit s text) [] [] 0
          (by simp) (by simp [joinSep]) (Nat.zero_le cs) chunks' cur' curLen' heq
        rw [heq] at hc
        exact finishGreedy_bound hinv.1 hinv.2.1 hinv.2.2 c hc
      · rw [if_neg hcont] at hc
        exact ih text c hc

theorem pyStrip_fixpoint {x c : List Char} (h : c = pyStrip x) : pyStrip c = c := by
  subst h
  exact pyStrip_idem x

theorem greedyFold_trimmed {cs : Nat} {sep : List Char} {recur : List Char → List (List Char)}
    (hrec : ∀ p, cs < p.length → ∀ c ∈ recur p, pyStrip c = c) :
    ∀ (parts chunks cur : List (List Char)) (curLen : Nat),
      (∀ c ∈ chunks, pyStrip c = c) →
      ∀ chunks' cur' curLen',
        greedyFold cs sep recur parts (chunks, cur, curLen) = (chunks', cur', curLen') →
        ∀ c ∈ chunks', pyStrip c = c := by
  intro parts
  induction parts with
  | nil =>
    intro chunks cur curLen h1 chunks' cur' curLen' heq
    rw [greedyFold] at heq
    injection heq with e1 e2
    subst e1
    exact h1
  | cons part ps ih =>
    intro chunks cur curLen h1 chunks' cur' curLen' heq
    rw [greedyFold] at heq
    simp only at heq
    have hchunks1 : ∀ c ∈ (if cur.isEmpty then chunks
        else chunks ++ [pyStrip (joinSep sep cur)]), pyStrip c = c := by
      by_cases hc : cur.isEmpty
      · rw [if_pos hc]; exact h1
      · rw [if_neg hc]
        intro c hcmem
        rcases List.mem_append.mp hcmem with h | h
        · exact h1 c h
        · simp only [List.mem_singleton] at h
          exact pyStrip_fixpoint h
    by_cases hadd : curLen + (part.length + if cur.isEmpty then 0 else sep.length) ≤ cs
    · rw [if_pos hadd] at heq
      exact ih _ _ _ h1 _ _ _ heq
    · rw [if_neg hadd] at heq
      by_cases hbig : cs < part.length
      · rw [if_pos hbig] at heq
        refine ih _ _ _ ?_ _ _ _ heq
        intro c hcmem
        rcases List.mem_append.mp hcmem with h | h
        · exact hchunks1 c h
        · exact hrec part hbig c h
      · rw [if_neg hbig] at heq
        exact ih _ _ _ hchunks1 _ _ _ heq

theorem finishGreedy_trimmed {sep : List Char} {chunks cur : List (List Char)} {curLen : Nat}
    (h1 : ∀ c ∈ chunks, pyStrip c = c) :
    ∀ c ∈ finishGreedy sep (chunks, cur, curLen), pyStrip c = c := by
  intro c hc
  rw [finishGreedy] at hc
  simp only at hc
  by_cases hcur : cur.isEmpty
  · rw [if_pos hcur] at hc; exact h1 c hc
  · rw [if_neg hcur] at hc
    by_cases hpiece : (pyStrip (joinSep sep cur)).isEmpty
    · rw [if_pos hpiece] at hc; exact h1 c hc
    · rw [if_neg hpiece] at hc
      rcases List.mem_append.mp hc with h | h
      · exact h1 c h
      · simp only [List.mem_singleton] at h
        exact pyStrip_fixpoint h

theorem split_text_recursively_trimmed (cs : Nat) :
    ∀ (seps : List (List Char)) (text : List Char), cs < text.length →
      ∀ c ∈ split_text_recursively cs seps text, pyStrip c = c := by
  intro seps
  induction seps with
  | nil =>
    intro text hlen c hc
    rw [split_text_recursively, if_neg (Nat.not_le.mpr hlen)] at hc
    simp only [hardCut, List.mem_filter, List.mem_map] at hc
    obtain ⟨⟨p, _, hpc⟩, _⟩ := hc
    exact pyStrip_fixpoint hpc.symm
  | cons s rest ih =>
    intro text hlen c hc
    rw [split_text_recursively, if_neg (Nat.not_le.mpr hlen)] at hc
    by_cases hcont : containsSub s text
    · rw [if_pos hcont] at hc
      obtain ⟨⟨chunks', cur', curLen'⟩, heq⟩ :
          ∃ st, greedyFold cs s (split_text_recursively cs rest) (pySplit s text)
            ([], [], 0) = st := ⟨_, rfl⟩
      have hrec : ∀ p, cs < p.length → ∀ c ∈ split_text_recursively cs rest p,
          pyStrip c = c := fun p hp => ih p hp
      have hinv := greedyFold_trimmed hrec (pySplit s text) [] [] 0 (by simp)
        chunks' cur' curLen' heq
      rw [heq] at hc
      exact finishGreedy_trimmed hinv c hc
    · rw [if_neg hcont] at hc
      exact ih text hlen c hc

theorem filter_joinSep {P : Char → Bool} {sep : List Char} (hsep : sep.filter P = []) :
    ∀ l : List (List Char), (joinSep sep l).filter P = (l.flatten).filter P := by
  intro l
  induction l with
  | nil => rfl
  | cons x xs ih =>
    cases xs with
    | nil => simp [joinSep]
    | cons y ys =>
      rw [joinSep_cons sep x (by simp), List.filter_append, List.filter_append, hsep,
        List.flatten_cons, List.filter_append, ih]
      simp

theorem flatten_filter_nonempty_scrub {P : Char → Bool} :
    ∀ l : List (List Char),
      ((l.filter (fun p => !p.isEmpty)).flatten).filter P = (l.flatten).filter P := by
  intro l
  induction l with
  | nil => rfl
  | cons x xs ih =>
    cases x with
    | nil => simpa using ih
    | cons a as =>
      have hf : List.filter (fun p => !p.isEmpty) ((a :: as) :: xs) =
          (a :: as) :: List.filter (fun p => !p.isEmpty) xs := by simp
      rw [hf, List.flatten_cons, List.flatten_cons, List.filter_append, List.filter_append, ih]

theorem flatten_map_pyStrip_scrub {P : Char → Bool}
    (hP : ∀ c, pyWs c = true → P c = false) :
    ∀ l : List (List Char), ((l.map pyStrip).flatten).filter P = (l.flatten).filter P := by
  intro l
  induction l with
  | nil => rfl
  | cons x xs ih => simp [List.filter_append, filter_pyStrip hP, ih]

theorem hardCut_scrub {P : Char → Bool} (hP : ∀ c, pyWs c = true → P c = false)
    {cs : Nat} (hcs : 0 < cs) (s : List Char) :
    ((hardCut cs s).flatten).filter P = s.filter P := by
  rw [hardCut, flatten_filter_nonempty_scrub, flatten_map_pyStrip_scrub hP, chunksEvery,
    flatten_chunksEveryGo cs hcs s.length s (Nat.le_refl _)]

theorem greedyFold_scrub {P : Char → Bool} {cs : Nat} {sep : List Char}
    {recur : List Char → List (List Char)}
    (hP : ∀ c, pyWs c = true → P c = false) (hsep : sep.filter P = [])
    (hrec : ∀ p, cs < p.length → ((recur p).flatten).filter P = p.filter P) :
    ∀ (parts chunks cur : List (List Char)) (curLen : Nat)
      (chunks' cur' : List (List Char)) (curLen' : Nat),
      greedyFold cs sep recur parts (chunks, cur, curLen) = (chunks', cur', curLen') →
      (chunks'.flatten).filter P ++ (cur'.flatten).filter P =
        (chunks.flatten).filter P ++ (cur.flatten).filter P ++ (parts.flatten).filter P := by
  intro parts
  induction parts with
  | nil =>
    intro chunks cur curLen chunks' cur' curLen' heq
    rw [greedyFold] at heq
    injection heq with e1 e2
    injection e2 with e2 e3
    subst e1; subst e2
    simp
  | cons part ps ih =>
    intro chunks cur curLen chunks' cur' curLen' heq
    rw [greedyFold] at heq
    simp only at heq
    have hchunks1 : ((if cur.isEmpty then chunks
        else chunks ++ [pyStrip (joinSep sep cur)]).flatten).filter P =
        (chunks.flatten).filter P ++ (cur.flatten).filter P := by
      by_cases hc : cur.isEmpty
      · rw [if_pos hc]
        have hce : cur = [] := List.isEmpty_iff.mp hc
        subst hce
        simp
      · rw [if_neg hc, List.flatten_append, List.filter_append]
        simp [filter_pyStrip hP, filter_joinSep hsep]
    by_cases hadd : curLen + (part.length + if cur.isEmpty then 0 else sep.length) ≤ cs
    · rw [if_pos hadd] at heq
      have h := ih _ _ _ _ _ _ heq
      rw [h]
      simp [List.filter_append, List.append_assoc]
    · rw [if_neg hadd] at heq
      by_cases hbig : cs < part.length
      · rw [if_pos hbig] at heq
        have h := ih _ _ _ _ _ _ heq
        rw [h, List.flatten_append, List.filter_append, hchunks1, hrec part hbig]
        simp [List.filter_append, List.append_assoc]
      · rw [if_neg hbig] at heq
        have h := ih _ _ _ _ _ _ heq
        rw [h, hchunks1]
        simp [List.filter_append, List.append_assoc]

theorem finishGreedy_scrub {P : Char → Bool} (hP : ∀ c, pyWs c = true → P c = false)
    {sep : List Char} (hsep : sep.filter P = [])
    (chunks cur : List (List Char)) (curLen : Nat) :
    ((finishGreedy sep (chunks, cur, curLen)).flatten).filter P =
      (chunks.flatten).filter P ++ (cur.flatten).filter P := by
  rw [finishGreedy]
  simp only
  by_cases hcur : cur.isEmpty
  · rw [if_pos hcur]
    have hce : cur = [] := List.isEmpty_iff.mp hcur
    subst hce
    simp
  · rw [if_neg hcur]
    by_cases hpiece : (pyStrip (joinSep sep cur)).isEmpty
    · rw [if_pos hpiece]
      have hnil : ((joinSep sep cur)).filter P = [] :=
        filter_of_pyStrip_nil hP (List.isEmpty_iff.mp hpiece)
      rw [filter_joinSep hsep] at hnil
      rw [hnil]
      simp
    · rw [if_neg hpiece, List.flatten_append, List.filter_append]
      simp [filter_pyStrip hP, filter_joinSep hsep]

theorem split_text_recursively_scrub {P : Char → Bool}
    (hP : ∀ c, pyWs c = true → P c = false) {cs : Nat} (hcs : 0 < cs) :
    ∀ (seps : List (List Char)), (∀ s ∈ seps, s.filter P = []) →
      ∀ text : List Char,
        ((split_text_recursively cs seps text).flatten).filter P = text.filter P := by
  intro seps
  induction seps with
  | nil =>
    intro _ text
    rw [split_text_recursively]
    by_cases hlen : text.length ≤ cs
    · rw [if_pos hlen]
      by_cases hemp : (pyStrip text).isEmpty
      · rw [if_pos hemp]
        have h := @filter_of_pyStrip_nil P hP text (List.isEmpty_iff.mp hemp)
        simp [h]
      · rw [if_neg hemp]
        simp
    · rw [if_neg hlen]
      exact hardCut_scrub hP hcs text
  | cons s rest ih =>
    intro hseps text
    have hsP : s.filter P = [] := hseps s (List.mem_cons_self s rest)
    have hrest : ∀ t ∈ rest, t.filter P = [] := fun t ht => hseps t (List.mem_cons_of_mem s ht)
    rw [split_text_recursively]
    by_cases hlen : text.length ≤ cs
    · rw [if_pos hlen]
      by_cases hemp : (pyStrip text).isEmpty
      · rw [if_pos hemp]
        have h := @filter_of_pyStrip_nil P hP text (List.isEmpty_iff.mp hemp)
        simp [h]
      · rw [if_neg hemp]
        simp
    · rw [if_neg hlen]
      by_cases hcont : containsSub s text
      · rw [if_pos hcont]
        obtain ⟨⟨chunks', cur', curLen'⟩, heq⟩ :
            ∃ st, greedyFold cs s (split_text_recursively cs rest) (pySplit s text)
              ([], [], 0) = st := ⟨_, rfl⟩
        have hrec : ∀ p, cs < p.length →
            ((split_text_recursively cs rest p).flatten).filter P = p.filter P :=
          fun p _ => ih hrest p
        have h1 := greedyFold_scrub hP hsP hrec (pySplit s text) [] [] 0 _ _ _ heq
        have h2 : (((pySplit s text).flatten)).filter P = text.filter P := by
          rw [← filter_joinSep hsP (pySplit s text), joinSep_pySplit]
        rw [heq, finishGreedy_scrub hP hsP, h1, h2]
        simp
      · rw [if_neg hcont]
        exact ih hrest text

/-! ### The section-merging loop of `split_note` -/

theorem split_note_fold_bound {cs : Nat} :
    ∀ (secs : List Section) (chunks parts : List (List Char)) (curLen : Nat),
      (∀ c ∈ chunks, c.length ≤ cs) → (joinSep sepNN parts).length ≤ curLen →
      curLen ≤ cs →
      ∀ (chunks' parts' : List (List Char)) (curLen' : Nat),
        secs.foldl (split_note_step cs) (chunks, parts, curLen) = (chunks', parts', curLen') →
        (∀ c ∈ chunks', c.length ≤ cs) ∧
          (joinSep sepNN parts').length ≤ curLen' ∧ curLen' ≤ cs := by
  intro secs
  induction secs with
  | nil =>
    intro chunks parts curLen h1 h2 h3 chunks' parts' curLen' heq
    rw [List.foldl_nil] at heq
    injection heq with e1 e2
    injection e2 with e2 e3
    subst e1; subst e2; subst e3
    exact ⟨h1, h2, h3⟩
  | cons sec ss ih =>
    intro chunks parts curLen h1 h2 h3 chunks' parts' curLen' heq
    rw [List.foldl_cons, split_note_step] at heq
    have hflush : ∀ c ∈ (if parts.isEmpty then chunks
        else chunks ++ [joinSep sepNN parts]), c.length ≤ cs := by
      by_cases hp : parts.isEmpty
      · rw [if_pos hp]; exact h1
      · rw [if_neg hp]
        intro c hcmem
        rcases List.mem_append.mp hcmem with h | h
        · exact h1 c h
        · simp only [List.mem_singleton] at h
          subst h
          omega
    by_cases hskip : (pyStrip (_section_text sec)).isEmpty
    · rw [if_pos hskip] at heq
      exact ih _ _ _ h1 h2 h3 _ _ _ heq
    · rw [if_neg hskip] at heq
      by_cases hbig : cs < (_section_text sec).length
      · rw [if_pos hbig] at heq
        refine ih _ _ _ ?_ (by simp [joinSep]) (Nat.zero_le cs) _ _ _ heq
        intro c hcmem
        rcases List.mem_append.mp hcmem with h | h
        · exact hflush c h
        · exact split_text_recursively_length_le cs defaultSeps (_section_text sec) c h
      · rw [if_neg hbig] at heq
        by_cases hover : cs < curLen + (_section_text sec).length + 2
        · rw [if_pos hover] at heq
          refine ih _ _ _ hflush ?_ (Nat.le_of_not_lt hbig) _ _ _ heq
          simp [joinSep]
        · rw [if_neg hover] at heq
          refine ih _ _ _ h1 ?_ (Nat.le_of_not_lt hover) _ _ _ heq
          by_cases hp : parts.isEmpty
          · have hpe : parts = [] := List.isEmpty_iff.mp hp
            subst hpe
            simp [joinSep]
            omega
          · have hpne : parts ≠ [] := fun h => hp (h ▸ rfl)
            rw [joinSep_concat _ _ hpne, List.length_append, List.length_append]
            have hsl : sepNN.length = 2 := rfl
            omega

theorem split_note_length_le {cs : Nat} (body : List Char) :
    ∀ c ∈ split_note body cs, c.length ≤ cs := by
  intro c hc
  rw [split_note] at hc
  simp only at hc
  by_cases hsecs : (split_by_markdown_headers body [1, 2, 3]).isEmpty
  · rw [if_pos hsecs] at hc
    exact split_text_recursively_length_le cs defaultSeps body c hc
  · rw [if_neg hsecs] at hc
    obtain ⟨⟨chunks', parts', curLen'⟩, heq⟩ :
        ∃ st, (split_by_markdown_headers body [1, 2, 3]).foldl (split_note_step cs)
          ([], [], 0) = st := ⟨_, rfl⟩
    have hinv := split_note_fold_bound (split_by_markdown_headers body [1, 2, 3]) [] [] 0
      (by simp) (by simp [joinSep]) (Nat.zero_le cs) chunks' parts' curLen' heq
    rw [heq] at hc
    have hc' := (List.mem_filter.mp hc).1
    by_cases hp : parts'.isEmpty
    · rw [if_pos hp] at hc'
      exact hinv.1 c hc'
    · rw [if_neg hp] at hc'
      rcases List.mem_append.mp hc' with h | h
      · exact hinv.1 c h
      · simp only [List.mem_singleton] at h
        subst h
        exact Nat.le_trans hinv.2.1 hinv.2.2

theorem flatten_filter_strip_scrub {P : Char → Bool}
    (hP : ∀ c, pyWs c = true → P c = false) :
    ∀ l : List (List Char),
      ((l.filter (fun c => !(pyStrip c).isEmpty)).flatten).filter P =
        (l.flatten).filter P := by
  intro l
  induction l with
  | nil => rfl
  | cons x xs ih =>
    by_cases hx : (pyStrip x).isEmpty
    · have hxf : x.filter P = [] := filter_of_pyStrip_nil hP (List.isEmpty_iff.mp hx)
      have hcond : List.filter (fun c => !(pyStrip c).isEmpty) (x :: xs) =
          List.filter (fun c => !(pyStrip c).isEmpty) xs := by
        rw [List.filter_cons]
        simp [hx]
      rw [hcond, ih, List.flatten_cons, List.filter_append, hxf]
      rfl
    · have hcond : List.filter (fun c => !(pyStrip c).isEmpty) (x :: xs) =
          x :: List.filter (fun c => !(pyStrip c).isEmpty) xs := by
        rw [List.filter_cons]
        simp [hx]
      rw [hcond, List.flatten_cons, List.flatten_cons, List.filter_append,
        List.filter_append, ih]

theorem split_note_fold_scrub {P : Char → Bool} {cs : Nat}
    (hP : ∀ c, pyWs c = true → P c = false) (hdot : P '.' = false) (hcs : 0 < cs) :
    ∀ (secs : List Section) (chunks parts : List (List Char)) (curLen : Nat)
      (chunks' parts' : List (List Char)) (curLen' : Nat),
      secs.foldl (split_note_step cs) (chunks, parts, curLen) = (chunks', parts', curLen') →
      (chunks'.flatten).filter P ++ (joinSep sepNN parts').filter P =
        (chunks.flatten).filter P ++ (joinSep sepNN parts).filter P ++
          (((secs.map _section_text).flatten).filter P) := by
  have hsp : P ' ' = false := hP ' ' (by decide)
  have hnl : P '\n' = false := hP '\n' (by decide)
  have hnn : sepNN.filter P = [] := by
    have e : sepNN = ['\n', '\n'] := rfl
    rw [e]
    simp [List.filter, hnl]
  have hsepsP : ∀ s ∈ defaultSeps, s.filter P = [] := by
    intro s hs
    simp only [defaultSeps, List.mem_cons, List.not_mem_nil, or_false] at hs
    rcases hs with h | h | h | h <;> subst h <;>
      simp [List.filter, hnl, hdot, hsp]
  intro secs
  induction secs with
  | nil =>
    intro chunks parts curLen chunks' parts' curLen' heq
    rw [List.foldl_nil] at heq
    injection heq with e1 e2
    injection e2 with e2 e3
    subst e1; subst e2
    simp
  | cons sec ss ih =>
    intro chunks parts curLen chunks' parts' curLen' heq
    rw [List.foldl_cons, split_note_step] at heq
    have hflush : ((if parts.isEmpty then chunks
        else chunks ++ [joinSep sepNN parts]).flatten).filter P =
        (chunks.flatten).filter P ++ (joinSep sepNN parts).filter P := by
      by_cases hp : parts.isEmpty
      · rw [if_pos hp]
        have hpe : parts = [] := List.isEmpty_iff.mp hp
        subst hpe
        simp [joinSep]
      · rw [if_neg hp, List.flatten_append, List.filter_append]
        simp
    by_cases hskip : (pyStrip (_section_text sec)).isEmpty
    · rw [if_pos hskip] at heq
      have h := ih _ _ _ _ _ _ heq
      rw [h]
      have hsecf : (_section_text sec).filter P = [] :=
        filter_of_pyStrip_nil hP (List.isEmpty_iff.mp hskip)
      simp [List.filter_append, hsecf, List.append_assoc]
    · rw [if_neg hskip] at heq
      by_cases hbig : cs < (_section_text sec).length
      · rw [if_pos hbig] at heq
        have h := ih _ _ _ _ _ _ heq
        rw [h, List.flatten_append, List.filter_append, hflush,
          split_text_recursively_scrub hP hcs defaultSeps hsepsP]
        simp [joinSep, List.filter_append, List.append_assoc]
      · rw [if_neg hbig] at heq
        by_cases hover : cs < curLen + (_section_text sec).length + 2
        · rw [if_pos hover] at heq
          have h := ih _ _ _ _ _ _ heq
          rw [h, hflush]
          simp [joinSep, List.filter_append, List.append_assoc]
        · rw [if_neg hover] at heq
          have h := ih _ _ _ _ _ _ heq
          rw [h]
          by_cases hp : parts.isEmpty
          · have hpe : parts = [] := List.isEmpty_iff.mp hp
            subst hpe
            simp [joinSep, List.filter_append, List.append_assoc]
          · have hpne : parts ≠ [] := fun hx => hp (hx ▸ rfl)
            rw [joinSep_concat _ _ hpne, List.filter_append, List.filter_append, hnn]
            simp [List.filter_append, List.append_assoc]

theorem defaultSeps_scrub {P : Char → Bool} (hP : ∀ c, pyWs c = true → P c = false)
    (hdot : P '.' = false) : ∀ s ∈ defaultSeps, s.filter P = [] := by
  intro s hs
  have hsp : P ' ' = false := hP ' ' (by decide)
  have hnl : P '\n' = false := hP '\n' (by decide)
  simp only [defaultSeps, List.mem_cons, List.not_mem_nil, or_false] at hs
  rcases hs with h | h | h | h <;> subst h <;> simp [List.filter, hnl, hdot, hsp]

theorem split_note_scrub {P : Char → Bool} (hP : ∀ c, pyWs c = true → P c = false)
    (hdot : P '.' = false) {cs : Nat} (hcs : 0 < cs) (body : List Char) :
    ((split_note body cs).flatten).filter P =
      (if (split_by_markdown_headers body [1, 2, 3]).isEmpty then body.filter P
        else ((((split_by_markdown_headers body [1, 2, 3]).map _section_text)).flatten).filter
          P) := by
  rw [split_note]
  simp only
  by_cases hsecs : (split_by_markdown_headers body [1, 2, 3]).isEmpty
  · rw [if_pos hsecs, if_pos hsecs]
    exact split_text_recursively_scrub hP hcs defaultSeps (defaultSeps_scrub hP hdot) body
  · rw [if_neg hsecs, if_neg hsecs]
    obtain ⟨⟨chunks', parts', curLen'⟩, heq⟩ :
        ∃ st, (split_by_markdown_headers body [1, 2, 3]).foldl (split_note_step cs)
          ([], [], 0) = st := ⟨_, rfl⟩
    have h := split_note_fold_scrub hP hdot hcs
      (split_by_markdown_headers body [1, 2, 3]) [] [] 0 _ _ _ heq
    rw [heq, flatten_filter_strip_scrub hP]
    have hflush : ((if parts'.isEmpty then chunks'
        else chunks' ++ [joinSep sepNN parts']).flatten).filter P =
        (chunks'.flatten).filter P ++ (joinSep sepNN parts').filter P := by
      by_cases hp : parts'.isEmpty
      · rw [if_pos hp]
        have hpe : parts' = [] := List.isEmpty_iff.mp hp
        subst hpe
        simp [joinSep]
      · rw [if_neg hp, List.flatten_append, List.filter_append]
        simp
    rw [hflush, h]
    simp [joinSep]

/-! ### Recursion-depth bound: the fuel-bounded splitter agrees -/

theorem greedyFoldO_eq {cs : Nat} {sep : List Char}
    {recurO : List Char → Option (List (List Char))} {recur : List Char → List (List Char)}
    (hrec : ∀ p, cs < p.length → recurO p = some (recur p)) :
    ∀ (parts : List (List Char)) (chunks cur : List (List Char)) (curLen : Nat),
      greedyFoldO cs sep recurO parts (chunks, cur, curLen) =
        some (greedyFold cs sep recur parts (chunks, cur, curLen)) := by
  intro parts
  induction parts with
  | nil =>
    intro chunks cur curLen
    rw [greedyFoldO, greedyFold]
  | cons part ps ih =>
    intro chunks cur curLen
    rw [greedyFoldO, greedyFold]
    simp only
    by_cases hadd : curLen + (part.length + if cur.isEmpty then 0 else sep.length) ≤ cs
    · rw [if_pos hadd, if_pos hadd]
      exact ih _ _ _
    · rw [if_neg hadd, if_neg hadd]
      by_cases hbig : cs < part.length
      · rw [if_pos hbig, if_pos hbig, hrec part hbig]
        exact ih _ _ _
      · rw [if_neg hbig, if_neg hbig]
        exact ih _ _ _

theorem splitRecFuel_eq (cs : Nat) :
    ∀ (seps : List (List Char)) (n : Nat), seps.length < n →
      ∀ text : List Char,
        splitRecFuel cs n seps text = some (split_text_recursively cs seps text) := by
  intro seps
  induction seps with
  | nil =>
    intro n hn text
    obtain ⟨m, rfl⟩ : ∃ m, n = m + 1 := ⟨n - 1, by omega⟩
    rw [splitRecFuel, split_text_recursively]
    by_cases hlen : text.length ≤ cs
    · rw [if_pos hlen, if_pos hlen]
    · rw [if_neg hlen, if_neg hlen, pickSep]
  | cons s rest ih =>
    intro n hn text
    obtain ⟨m, rfl⟩ : ∃ m, n = m + 1 := ⟨n - 1, by omega⟩
    have hm : rest.length < m := by
      simp only [List.length_cons] at hn
      omega
    rw [splitRecFuel, split_text_recursively]
    by_cases hlen : text.length ≤ cs
    · rw [if_pos hlen, if_pos hlen]
    · rw [if_neg hlen, if_neg hlen, pickSep]
      by_cases hcont : containsSub s text
      · rw [if_pos hcont, if_pos hcont]
        have hrec : ∀ p, cs < p.length →
            splitRecFuel cs m rest p = some (split_text_recursively cs rest p) :=
          fun p _ => ih m hm p
        show Option.map (finishGreedy s)
            (greedyFoldO cs s (splitRecFuel cs m rest) (pySplit s text) ([], [], 0)) = _
        rw [greedyFoldO_eq hrec (pySplit s text) [] [] 0]
        rfl
      · rw [if_neg hcont, if_neg hcont]
        have hres := ih (m + 1) (Nat.lt_succ_of_lt hm) text
        rw [splitRecFuel, if_neg hlen] at hres
        exact hres

/-! ### Breadcrumb tracking: code update versus declarative spec -/

theorem specHeaders_nil (levels : List Nat) : specHeaders levels [] = [] :=
  List.filterMap_eq_nil_iff.mpr (fun _ _ => rfl)

theorem mem_specHeaders {levels : List Nat} {heads : List (Nat × List Char)}
    {p : Nat × List Char} (hp : p ∈ specHeaders levels heads) :
    p.1 ∈ levels ∧ recentAt heads.reverse p.1 = some p.2 := by
  obtain ⟨l, hl, he⟩ := List.mem_filterMap.mp hp
  cases hre : recentAt heads.reverse l with
  | none => rw [hre] at he; simp at he
  | some t =>
    rw [hre] at he
    simp only [Option.map_some'] at he
    injection he with he
    subst he
    exact ⟨hl, hre⟩

theorem specHeaders_keys (levels : List Nat) (heads : List (Nat × List Char)) :
    (specHeaders levels heads).map Prod.fst =
      levels.filter (fun l => (recentAt heads.reverse l).isSome) := by
  induction levels with
  | nil => rfl
  | cons l ls ih =>
    simp only [specHeaders] at ih ⊢
    rw [List.filterMap_cons, List.filter_cons]
    cases hre : recentAt heads.reverse l with
    | none => simpa [hre] using ih
    | some t => simpa [hre] using ih

theorem specHeaders_chain {levels : List Nat} (heads : List (Nat × List Char))
    (h : List.Chain' (· < ·) levels) :
    List.Chain' (· < ·) ((specHeaders levels heads).map Prod.fst) := by
  rw [specHeaders_keys]
  exact h.sublist (List.filter_sublist levels)

theorem headerUpdate_canon {levels : List Nat} {lv : Nat} (t : List Char)
    {hs : List (Nat × List Char)} (hsort : List.Chain' (· < ·) (hs.map Prod.fst))
    (hkeys : ∀ p ∈ hs, p.1 ∈ levels) :
    headerPop levels lv (headerSet hs lv t) =
      hs.filter (fun p => decide (p.1 < lv)) ++ [(lv, t)] := by
  have hpair : List.Pairwise (· < ·) (hs.map Prod.fst) := List.chain'_iff_pairwise.mp hsort
  by_cases hmem : hs.any (fun p => p.1 == lv)
  · obtain ⟨p0, hp0mem, hp0⟩ := List.any_eq_true.mp hmem
    have hp0k : p0.1 = lv := by simpa using hp0
    obtain ⟨P, Q, hPQ⟩ := List.append_of_mem hp0mem
    subst hPQ
    rw [List.map_append, List.map_cons, List.pairwise_append] at hpair
    have hPlt : ∀ x ∈ P, x.1 < lv := by
      intro x hx
      have := hpair.2.2 x.1 (List.mem_map_of_mem _ hx) p0.1 (List.mem_cons_self _ _)
      omega
    have hQgt : ∀ x ∈ Q, lv < x.1 := by
      intro x hx
      have := (List.pairwise_cons.mp hpair.2.1).1 x.1 (List.mem_map_of_mem _ hx)
      omega
    have hset : headerSet (P ++ p0 :: Q) lv t = P ++ (lv, t) :: Q := by
      rw [headerSet, if_pos hmem, List.map_append, List.map_cons]
      have hPmap : P.map (fun p => if p.1 == lv then (lv, t) else p) = P := by
        rw [show P = P.map id from (List.map_id P).symm]
        rw [List.map_map]
        apply List.map_congr_left
        intro a ha
        simp only [List.map_id] at ha
        have : a.1 ≠ lv := Nat.ne_of_lt (hPlt a ha)
        simp [this]
      have hQmap : Q.map (fun p => if p.1 == lv then (lv, t) else p) = Q := by
        rw [show Q = Q.map id from (List.map_id Q).symm]
        rw [List.map_map]
        apply List.map_congr_left
        intro a ha
        simp only [List.map_id] at ha
        have : a.1 ≠ lv := Nat.ne_of_gt (hQgt a ha)
        simp [this]
      rw [hPmap, hQmap]
      congr 1
      simp [hp0k]
    rw [hset, headerPop, List.filter_append, List.filter_cons]
    have hPkeep : P.filter (fun p => !(levels.contains p.1 && decide (lv < p.1))) = P := by
      rw [List.filter_eq_self]
      intro a ha
      have h1 : decide (lv < a.1) = false := by
        have := hPlt a ha
        simp
        omega
      simp [h1]
    have hQdrop : Q.filter (fun p => !(levels.contains p.1 && decide (lv < p.1))) = [] := by
      rw [List.filter_eq_nil_iff]
      intro a ha
      have h1 : decide (lv < a.1) = true := by simpa using hQgt a ha
      have h2 : levels.contains a.1 = true :=
        List.elem_iff.mpr (hkeys a (List.mem_append.mpr (Or.inr (List.mem_cons_of_mem p0 ha))))
      simp only [h1, h2]
      simp
    have hcond : (!(levels.contains lv && decide (lv < lv))) = true := by simp
    rw [hPkeep, hQdrop, if_pos hcond]
    have hRHS : (P ++ p0 :: Q).filter (fun p => decide (p.1 < lv)) = P := by
      rw [List.filter_append, List.filter_cons]
      have hP : P.filter (fun p => decide (p.1 < lv)) = P :=
        List.filter_eq_self.mpr (fun a ha => by simpa using hPlt a ha)
      have hp0f : (decide (p0.1 < lv)) = false := by simp [hp0k]
      have hQ : Q.filter (fun p => decide (p.1 < lv)) = [] :=
        List.filter_eq_nil_iff.mpr (fun a ha => by
          have := hQgt a ha
          simp
          omega)
      rw [hP, hp0f, hQ]
      simp
    rw [hRHS]
  · have hnokey : ∀ p ∈ hs, p.1 ≠ lv := by
      intro p hp heq'
      exact hmem (List.any_eq_true.mpr ⟨p, hp, by simp [heq']⟩)
    rw [headerSet, if_neg hmem, headerPop, List.filter_append, List.filter_cons]
    have hcond : (!(levels.contains lv && decide (lv < lv))) = true := by simp
    rw [if_pos hcond]
    have hfc : hs.filter (fun p => !(levels.contains p.1 && decide (lv < p.1))) =
        hs.filter (fun p => decide (p.1 < lv)) := by
      apply List.filter_congr
      intro x hx
      have h2 : levels.contains x.1 = true := List.elem_iff.mpr (hkeys x hx)
      have h3 : x.1 ≠ lv := hnokey x hx
      rcases Nat.lt_trichotomy x.1 lv with h4 | h4 | h4
      · simp only [h2, Bool.true_and]
        simp [h4, Nat.lt_asymm h4]
      · exact absurd h4 h3
      · simp only [h2, Bool.true_and]
        simp [h4, Nat.lt_asymm h4]
    rw [hfc]
    rfl

theorem specHeaders_snoc {levels : List Nat} {lv : Nat} (t : List Char)
    (heads : List (Nat × List Char)) (hchain : List.Chain' (· < ·) levels)
    (hlv : lv ∈ levels) :
    specHeaders levels (heads ++ [(lv, t)]) =
      (specHeaders levels heads).filter (fun p => decide (p.1 < lv)) ++ [(lv, t)] := by
  have hrev : (heads ++ [(lv, t)]).reverse = (lv, t) :: heads.reverse := by simp
  revert hchain hlv
  induction levels with
  | nil => intro _ hlv; simp at hlv
  | cons l ls ih =>
    intro hchain hlv
    have hpair := List.chain'_iff_pairwise.mp hchain
    have hgt : ∀ x ∈ ls, l < x := (List.pairwise_cons.mp hpair).1
    simp only [specHeaders, hrev] at ih ⊢
    simp only [List.filterMap_cons]
    by_cases hl : l = lv
    · subst hl
      have hfl : recentAt ((l, t) :: heads.reverse) l = some t := by
        rw [recentAt, if_pos rfl]
      have htail : ls.filterMap (fun x => (recentAt ((l, t) :: heads.reverse) x).map
          (fun t' => (x, t'))) = [] := by
        rw [List.filterMap_eq_nil_iff]
        intro x hx
        rw [recentAt, if_neg (Nat.ne_of_lt (hgt x hx)), if_pos (hgt x hx)]
        rfl
      have htailflt : (ls.filterMap (fun x => (recentAt heads.reverse x).map
          (fun t' => (x, t')))).filter (fun p => decide (p.1 < l)) = [] := by
        rw [List.filter_eq_nil_iff]
        intro a ha
        obtain ⟨x, hx, hfx⟩ := List.mem_filterMap.mp ha
        cases hre2 : recentAt heads.reverse x with
        | none => rw [hre2] at hfx; simp at hfx
        | some v =>
          rw [hre2] at hfx
          simp only [Option.map_some'] at hfx
          injection hfx with hfx
          have hlt : l < a.1 := by
            rw [← hfx]
            exact hgt x hx
          simp
          omega
      rw [hfl, htail]
      simp only [Option.map_some']
      cases hre : recentAt heads.reverse l with
      | none => simp [htailflt]
      | some v => simp [htailflt]
    · have hlv' : lv ∈ ls := by
        rcases List.mem_cons.mp hlv with h | h
        · exact absurd h.symm hl
        · exact h
      have hllt : l < lv := hgt lv hlv'
      have hfl : recentAt ((lv, t) :: heads.reverse) l = recentAt heads.reverse l := by
        rw [recentAt, if_neg (fun h => hl h.symm), if_neg (Nat.lt_asymm hllt)]
      rw [hfl]
      have htl := ih hchain.tail hlv'
      cases hre : recentAt heads.reverse l with
      | none => simpa using htl
      | some v => simp [hllt, htl]

theorem sbFlush_spec (levels : List Nat) (S : List Section)
    (heads : List (Nat × List Char)) (acc : List (List Char)) :
    sbFlush S (specHeaders levels heads) acc = S ++ specFlush levels heads acc := by
  rw [sbFlush, specFlush]
  by_cases h : (pyStrip (joinSep ['\n'] acc)).isEmpty
  · rw [if_pos h, if_pos h]
    simp
  · rw [if_neg h, if_neg h]

theorem sbFold_spec {levels : List Nat} (hchain : List.Chain' (· < ·) levels) :
    ∀ (lines : List (List Char)) (S : List Section) (heads : List (Nat × List Char))
      (acc : List (List Char)),
      (match lines.foldl (sbStep levels) (S, specHeaders levels heads, acc) with
        | (secs, hdrs, cur) => sbFlush secs hdrs cur) =
        S ++ specGo levels heads acc lines := by
  intro lines
  induction lines with
  | nil =>
    intro S heads acc
    rw [List.foldl_nil, specGo]
    exact sbFlush_spec levels S heads acc
  | cons line ls ih =>
    intro S heads acc
    rw [List.foldl_cons]
    cases hph : parseHeading line with
    | none =>
      have hstep : sbStep levels (S, specHeaders levels heads, acc) line =
          (S, specHeaders levels heads, acc ++ [line]) := by
        rw [sbStep, hph]
      have hspec : specGo levels heads acc (line :: ls) =
          specGo levels heads (acc ++ [line]) ls := by
        rw [specGo, trackedOf, hph]
      rw [hstep, hspec]
      exact ih S heads (acc ++ [line])
    | some p =>
      obtain ⟨lv, tt⟩ := p
      by_cases hin : levels.contains lv
      · have hlv : lv ∈ levels := List.elem_iff.mp hin
        have hupd : headerPop levels lv (headerSet (specHeaders levels heads) lv tt) =
            specHeaders levels (heads ++ [(lv, tt)]) := by
          rw [headerUpdate_canon tt (specHeaders_chain heads hchain)
            (fun p hp => (mem_specHeaders hp).1),
            specHeaders_snoc tt heads hchain hlv]
        have hstep : sbStep levels (S, specHeaders levels heads, acc) line =
            (sbFlush S (specHeaders levels heads) acc,
              specHeaders levels (heads ++ [(lv, tt)]), []) := by
          rw [sbStep, hph]
          simp only [if_pos hin]
          rw [hupd]
        have hspec : specGo levels heads acc (line :: ls) =
            specFlush levels heads acc ++ specGo levels (heads ++ [(lv, tt)]) [] ls := by
          rw [specGo, trackedOf, hph]
          simp only [if_pos hin]
        rw [hstep, hspec, ih (sbFlush S (specHeaders levels heads) acc)
          (heads ++ [(lv, tt)]) [], sbFlush_spec levels S heads acc, List.append_assoc]
      · have hstep : sbStep levels (S, specHeaders levels heads, acc) line =
            (S, specHeaders levels heads, acc ++ [line]) := by
          rw [sbStep, hph]
          simp only [if_neg hin]
        have hspec : specGo levels heads acc (line :: ls) =
            specGo levels heads (acc ++ [line]) ls := by
          rw [specGo, trackedOf, hph]
          simp only [if_neg hin]
        rw [hstep, hspec]
        exact ih S heads (acc ++ [line])

theorem split_by_markdown_headers_spec {levels : List Nat}
    (hchain : List.Chain' (· < ·) levels) (text : List Char) :
    split_by_markdown_headers text levels = sectionsSpec levels text := by
  rw [split_by_markdown_headers, sectionsSpec]
  have h := sbFold_spec hchain (pySplit ['\n'] text) [] [] []
  rw [specHeaders_nil] at h
  simpa using h

theorem canon_chain {lv : Nat} {t : List Char} {hs : List (Nat × List Char)}
    (hsort : List.Chain' (· < ·) (hs.map Prod.fst)) :
    List.Chain' (· < ·)
      (((hs.filter (fun p => decide (p.1 < lv))) ++ [(lv, t)]).map Prod.fst) := by
  rw [List.map_append]
  rw [List.chain'_iff_pairwise] at hsort ⊢
  rw [List.pairwise_append]
  refine ⟨hsort.sublist ((List.filter_sublist hs).map Prod.fst), by simp, ?_⟩
  intro a ha b hb
  simp only [List.map_cons, List.map_nil, List.mem_singleton] at hb
  subst hb
  obtain ⟨p, hp, hpa⟩ := List.mem_map.mp ha
  have hplt := (List.mem_filter.mp hp).2
  rw [hpa] at hplt
  simpa using hplt

theorem canon_keys {levels : List Nat} {lv : Nat} {t : List Char}
    {hs : List (Nat × List Char)} (hkeys : ∀ p ∈ hs, p.1 ∈ levels) (hlv : lv ∈ levels) :
    ∀ p ∈ (hs.filter (fun p => decide (p.1 < lv))) ++ [(lv, t)], p.1 ∈ levels := by
  intro p hp
  rcases List.mem_append.mp hp with h | h
  · exact hkeys p (List.mem_filter.mp h).1
  · simp only [List.mem_singleton] at h
    subst h
    exact hlv

theorem sbFlush_chain {S : List Section} {hdrs : List (Nat × List Char)}
    {acc : List (List Char)}
    (hS : ∀ sec ∈ S, List.Chain' (· < ·) (sec.headers.map Prod.fst))
    (hchain : List.Chain' (· < ·) (hdrs.map Prod.fst)) :
    ∀ sec ∈ sbFlush S hdrs acc, List.Chain' (· < ·) (sec.headers.map Prod.fst) := by
  intro sec hsec
  rw [sbFlush] at hsec
  by_cases hb : (pyStrip (joinSep ['\n'] acc)).isEmpty
  · rw [if_pos hb] at hsec
    exact hS sec hsec
  · rw [if_neg hb] at hsec
    rcases List.mem_append.mp hsec with h | h
    · exact hS sec h
    · simp only [List.mem_singleton] at h
      subst h
      exact hchain

theorem sbFold_chain {levels : List Nat} :
    ∀ (lines : List (List Char)) (S : List Section) (hdrs : List (Nat × List Char))
      (acc : List (List Char)),
      (∀ sec ∈ S, List.Chain' (· < ·) (sec.headers.map Prod.fst)) →
      List.Chain' (· < ·) (hdrs.map Prod.fst) → (∀ p ∈ hdrs, p.1 ∈ levels) →
      ∀ sec ∈ (match lines.foldl (sbStep levels) (S, hdrs, acc) with
        | (secs, h2, cur) => sbFlush secs h2 cur),
        List.Chain' (· < ·) (sec.headers.map Prod.fst) := by
  intro lines
  induction lines with
  | nil =>
    intro S hdrs acc hS hchain _ sec hsec
    rw [List.foldl_nil] at hsec
    exact sbFlush_chain hS hchain sec hsec
  | cons line ls ih =>
    intro S hdrs acc hS hchain hkeys sec hsec
    rw [List.foldl_cons] at hsec
    cases hph : parseHeading line with
    | none =>
      have hstep : sbStep levels (S, hdrs, acc) line = (S, hdrs, acc ++ [line]) := by
        rw [sbStep, hph]
      rw [hstep] at hsec
      exact ih S hdrs (acc ++ [line]) hS hchain hkeys sec hsec
    | some p =>
      obtain ⟨lv, tt⟩ := p
      by_cases hin : levels.contains lv
      · have hstep : sbStep levels (S, hdrs, acc) line =
            (sbFlush S hdrs acc, headerPop levels lv (headerSet hdrs lv tt), []) := by
          rw [sbStep, hph]
          simp only [if_pos hin]
        rw [hstep, headerUpdate_canon tt hchain hkeys] at hsec
        exact ih _ _ [] (sbFlush_chain hS hchain) (canon_chain hchain)
          (canon_keys hkeys (List.elem_iff.mp hin)) sec hsec
      · have hstep : sbStep levels (S, hdrs, acc) line = (S, hdrs, acc ++ [line]) := by
          rw [sbStep, hph]
          simp only [if_neg hin]
        rw [hstep] at hsec
        exact ih S hdrs (acc ++ [line]) hS hchain hkeys sec hsec

theorem split_by_markdown_headers_chain (text : List Char) (levels : List Nat) :
    ∀ sec ∈ split_by_markdown_headers text levels,
      List.Chain' (· < ·) (sec.headers.map Prod.fst) := by
  intro sec hsec
  rw [split_by_markdown_headers] at hsec
  exact sbFold_chain (pySplit ['\n'] text) [] [] [] (by simp) (by simp) (by simp) sec hsec

/-! ### Fan-in ordering: gather associates results by input position -/

theorem find?_log {f : Nat → List Char} :
    ∀ (order : List Nat) (i : Nat), i ∈ order →
      (order.map (fun j => (j, f j))).find? (fun p => p.1 == i) = some (i, f i) := by
  intro order
  induction order with
  | nil => intro i hi; simp at hi
  | cons j js ih =>
    intro i hi
    by_cases hj : j = i
    · subst hj
      simp [List.find?_cons]
    · have hmem : i ∈ js := by
        rcases List.mem_cons.mp hi with h | h
        · exact absurd h.symm hj
        · exact h
      have hbeq : (j == i) = false := by simp [hj]
      simp [List.find?_cons, hbeq, ih i hmem]

theorem map_getD_range (tasks : List (List Char)) :
    (List.range tasks.length).map (fun i => tasks.getD i []) = tasks := by
  induction tasks with
  | nil => rfl
  | cons t ts ih =>
    rw [List.length_cons, List.range_succ_eq_map, List.map_cons, List.map_map]
    have hcomp : (List.range ts.length).map ((fun i => (t :: ts).getD i []) ∘ Nat.succ) =
        (List.range ts.length).map (fun i => ts.getD i []) := by
      apply List.map_congr_left
      intro i _
      rfl
    rw [hcomp, ih]
    rfl

theorem gatherModel_perm {tasks : List (List Char)} {order : List Nat}
    (hperm : order.Perm (List.range tasks.length)) :
    gatherModel tasks order = tasks := by
  simp only [gatherModel]
  have hmapc : (List.range tasks.length).map (fun i =>
      (((order.map (fun j => (j, tasks.getD j []))).find? (fun p => p.1 == i)).map
        Prod.snd).getD []) = (List.range tasks.length).map (fun i => tasks.getD i []) := by
    apply List.map_congr_left
    intro i hi
    have hio : i ∈ order := hperm.mem_iff.mpr hi
    rw [find?_log order i hio]
    rfl
  rw [hmapc, map_getD_range]

theorem mapStepResults_perm (gen : List Char → List Char) {order : List Nat}
    {chunks : List (List Char)} (hperm : order.Perm (List.range chunks.length)) :
    mapStepResults gen order chunks =
      chunks.map (fun chunk => callOllama gen (pyReplace textSlot chunk MAP_PROMPT)) := by
  rw [mapStepResults]
  apply gatherModel_perm
  simpa using hperm

/-! ### `clean_llm_output`: think-tag removal and quote stripping -/

theorem removeThinkGo_no_lt : ∀ (fuel : Nat) (s : List Char), (∀ c ∈ s, c ≠ '<') →
    removeThinkGo fuel s = s := by
  intro fuel
  induction fuel with
  | zero => intro s _; rfl
  | succ f ih =>
    intro s hs
    cases s with
    | nil => rfl
    | cons c rest =>
      rw [removeThinkGo]
      have hc : ('<' == c) = false := by
        have := hs c (List.mem_cons_self _ _)
        simp
        exact fun h => this h.symm
      have hpre : ("<think>".data.isPrefixOf (c :: rest)) = false := by
        show (('<' :: "think>".data).isPrefixOf (c :: rest)) = false
        simp [List.isPrefixOf]
        intro h
        rw [h] at hc
        simp at hc
      simp only [hpre, Bool.false_eq_true, if_false]
      rw [ih rest (fun x hx => hs x (List.mem_cons_of_mem c hx))]

theorem removeThink_no_lt {s : List Char} (hs : ∀ c ∈ s, c ≠ '<') : removeThink s = s :=
  removeThinkGo_no_lt s.length s hs

theorem pyStrip_no_ws_ends {s : List Char}
    (hh : ∀ c, s.head? = some c → pyWs c = false)
    (hl : ∀ c, s.getLast? = some c → pyWs c = false) : pyStrip s = s := by
  cases s with
  | nil => rfl
  | cons c rest =>
    have hstart : stripStart (c :: rest) = c :: rest := by
      rw [stripStart, List.dropWhile_cons, if_neg]
      simp [hh c rfl]
    rw [pyStrip, hstart, stripEnd]
    cases hrev : (c :: rest).reverse with
    | nil => exact absurd hrev (by simp)
    | cons d tl =>
      have hd : (c :: rest).getLast? = some d := by
        rw [← List.head?_reverse, hrev]
        rfl
      rw [List.dropWhile_cons, if_neg (by simp [hl d hd])]
      rw [← hrev, List.reverse_reverse]

theorem stripQuotePair_wrap (q : Char) (inner : List Char) :
    stripQuotePair q (q :: inner ++ [q]) = inner := by
  rw [stripQuotePair, if_pos]
  · show ((q :: inner ++ [q]).drop 1).dropLast = inner
    simp
  · have hlen : (q :: inner ++ [q]).length = inner.length + 2 := by simp
    refine ⟨by omega, rfl, ?_⟩
    show ((q :: inner) ++ [q]).getLast? = some q
    exact List.getLast?_concat _

theorem stripQuotePair_skip {q : Char} {s : List Char} (h : s.head? ≠ some q) :
    stripQuotePair q s = s := by
  rw [stripQuotePair, if_neg]
  rintro ⟨_, h2, _⟩
  exact h h2

/-! ### Single-character splitting and the YAML summary-line rewrite -/

theorem splitFirst_char_none {c : Char} : ∀ {s : List Char},
    splitFirst [c] s = none → c ∉ s := by
  intro s
  induction s with
  | nil => intro _; simp
  | cons d rest ih =>
    intro h
    rw [splitFirst] at h
    by_cases hp : ([c].isPrefixOf (d :: rest))
    · rw [if_pos hp] at h
      exact absurd h (by simp)
    · rw [if_neg hp] at h
      have hcd : c ≠ d := by
        intro he
        subst he
        exact hp (by simp [List.isPrefixOf])
      cases hsf : splitFirst [c] rest with
      | none =>
        intro hmem
        rcases List.mem_cons.mp hmem with he | he
        · exact hcd he
        · exact ih hsf he
      | some pp =>
        rw [hsf] at h
        exact absurd h (by simp)

theorem splitFirst_char_not_mem {c : Char} : ∀ {s : List Char},
    c ∉ s → splitFirst [c] s = none := by
  intro s
  induction s with
  | nil => intro _; rfl
  | cons d rest ih =>
    intro h
    have hcd : c ≠ d := fun he => h (he ▸ List.mem_cons_self _ _)
    have hp : ([c].isPrefixOf (d :: rest)) = false := by
      simp [List.isPrefixOf]
      exact hcd
    rw [splitFirst, if_neg (by simp [hp]), ih (fun hm => h (List.mem_cons_of_mem d hm))]

theorem splitFirst_char_pre {c : Char} : ∀ {s pre post : List Char},
    splitFirst [c] s = some (pre, post) → c ∉ pre := by
  intro s
  induction s with
  | nil => intro pre post h; simp [splitFirst] at h
  | cons d rest ih =>
    intro pre post h
    rw [splitFirst] at h
    by_cases hp : ([c].isPrefixOf (d :: rest))
    · rw [if_pos hp] at h
      injection h with h'
      injection h' with h1 _
      subst h1
      simp
    · rw [if_neg hp] at h
      have hcd : c ≠ d := by
        intro he
        subst he
        exact hp (by simp [List.isPrefixOf])
      cases hsf : splitFirst [c] rest with
      | none =>
        rw [hsf] at h
        exact absurd h (by simp)
      | some pp =>
        obtain ⟨p', q'⟩ := pp
        rw [hsf] at h
        injection h with h'
        injection h' with h1 _
        subst h1
        intro hmem
        rcases List.mem_cons.mp hmem with he | he
        · exact hcd he
        · exact ih hsf he

theorem splitFirst_char_append {c : Char} : ∀ (x r : List Char), c ∉ x →
    splitFirst [c] (x ++ c :: r) = some (x, r) := by
  intro x
  induction x with
  | nil =>
    intro r _
    rw [List.nil_append, splitFirst, if_pos (by simp [List.isPrefixOf])]
    rfl
  | cons d x' ih =>
    intro r hc
    have hcd : c ≠ d := fun he => hc (he ▸ List.mem_cons_self _ _)
    have hp : ([c].isPrefixOf (d :: (x' ++ c :: r))) = false := by
      simp [List.isPrefixOf]
      exact hcd
    rw [List.cons_append, splitFirst, if_neg (by simp [hp]),
      ih r (fun hm => hc (List.mem_cons_of_mem d hm))]

theorem pySplitGo_char_pieces {c : Char} : ∀ (fuel : Nat) (s : List Char),
    s.length ≤ fuel → ∀ x ∈ pySplitGo [c] fuel s, c ∉ x := by
  intro fuel
  induction fuel with
  | zero =>
    intro s hs x hx
    have : s = [] := List.length_eq_zero.mp (Nat.le_zero.mp hs)
    subst this
    simp only [pySplitGo, List.mem_singleton] at hx
    subst hx
    simp
  | succ f ih =>
    intro s hs x hx
    rw [pySplitGo] at hx
    cases hsf : splitFirst [c] s with
    | none =>
      rw [hsf] at hx
      simp only [List.mem_singleton] at hx
      subst hx
      exact splitFirst_char_none hsf
    | some pp =>
      obtain ⟨pre, post⟩ := pp
      rw [hsf] at hx
      rcases List.mem_cons.mp hx with h | h
      · subst h
        exact splitFirst_char_pre hsf
      · have hlt := splitFirst_length_lt (by simp) hsf
        exact ih post (by omega) x h

theorem pySplitGo_joinSep_char {c : Char} : ∀ (ls : List (List Char)) (fuel : Nat),
    ls ≠ [] → (∀ l ∈ ls, c ∉ l) → (joinSep [c] ls).length ≤ fuel →
    pySplitGo [c] fuel (joinSep [c] ls) = ls := by
  intro ls
  induction ls with
  | nil => intro fuel h; exact absurd rfl h
  | cons x xs ih =>
    intro fuel _ hmem hfuel
    cases xs with
    | nil =>
      have hx : c ∉ x := hmem x (by simp)
      have hnone : splitFirst [c] x = none := splitFirst_char_not_mem hx
      cases fuel with
      | zero => rfl
      | succ f =>
        show pySplitGo [c] (f + 1) x = [x]
        rw [pySplitGo, hnone]
    | cons y ys =>
      have hx : c ∉ x := hmem x (by simp)
      have hjoin : joinSep [c] (x :: y :: ys) = x ++ c :: joinSep [c] (y :: ys) := by
        rw [joinSep_cons [c] x (by simp)]
        simp
      cases fuel with
      | zero =>
        rw [hjoin] at hfuel
        simp at hfuel
      | succ f =>
        rw [hjoin, pySplitGo, splitFirst_char_append x _ hx]
        have hfu : (joinSep [c] (y :: ys)).length ≤ f := by
          rw [hjoin] at hfuel
          simp only [List.length_append, List.length_cons] at hfuel
          omega
        show x :: pySplitGo [c] f (joinSep [c] (y :: ys)) = x :: y :: ys
        rw [ih f (by simp) (fun l hl => hmem l (List.mem_cons_of_mem x hl)) hfu]

theorem pySplit_joinSep_char {c : Char} {ls : List (List Char)} (hne : ls ≠ [])
    (hmem : ∀ l ∈ ls, c ∉ l) : pySplit [c] (joinSep [c] ls) = ls :=
  pySplitGo_joinSep_char ls _ hne hmem (Nat.le_refl _)

theorem flatMap_esc_id {a : Char} {new : List Char} : ∀ {s : List Char}, a ∉ s →
    s.flatMap (fun c => if c = a then new else [c]) = s := by
  intro s
  induction s with
  | nil => intro _; rfl
  | cons d rest ih =>
    intro h
    rw [List.flatMap_cons,
      if_neg (fun he => h (by rw [← he]; exact List.mem_cons_self _ _)),
      ih (fun hm => h (List.mem_cons_of_mem d hm))]
    rfl

theorem pyReplaceChar_go {a : Char} {new : List Char} : ∀ (fuel : Nat) (s : List Char),
    s.length ≤ fuel →
    joinSep new (pySplitGo [a] fuel s) =
      s.flatMap (fun c => if c = a then new else [c]) := by
  intro fuel
  induction fuel with
  | zero =>
    intro s hs
    have : s = [] := List.length_eq_zero.mp (Nat.le_zero.mp hs)
    subst this
    rfl
  | succ f ih =>
    intro s hs
    rw [pySplitGo]
    cases hsf : splitFirst [a] s with
    | none =>
      rw [joinSep, flatMap_esc_id (splitFirst_char_none hsf)]
    | some pp =>
      obtain ⟨pre, post⟩ := pp
      have heq := splitFirst_eq hsf
      have hpre : a ∉ pre := splitFirst_char_pre hsf
      have hlt := splitFirst_length_lt (by simp) hsf
      rw [joinSep_cons new pre (pySplitGo_ne_nil [a] f post), ih post (by omega)]
      subst heq
      rw [show pre ++ [a] ++ post = pre ++ a :: post by simp, List.flatMap_append,
        List.flatMap_cons, if_pos rfl, flatMap_esc_id hpre, List.append_assoc]

theorem pyReplace_char (a : Char) (new s : List Char) :
    pyReplace [a] new s = s.flatMap (fun c => if c = a then new else [c]) :=
  pyReplaceChar_go s.length s (Nat.le_refl _)

theorem flatMap_comp_esc : ∀ s : List Char,
    ((s.flatMap (fun c => if c = '\\' then ['\\', '\\'] else [c])).flatMap
      (fun c => if c = '\x22' then ['\\', '\x22'] else [c])) =
    s.flatMap (fun c =>
      if c = '\\' then ['\\', '\\'] else if c = '\x22' then ['\\', '\x22'] else [c]) := by
  intro s
  induction s with
  | nil => rfl
  | cons c rest ih =>
    rw [List.flatMap_cons, List.flatMap_append, List.flatMap_cons, ih]
    congr 1
    by_cases hc : c = '\\'
    · subst hc
      decide
    · by_cases hq : c = '\x22'
      · subst hq
        decide
      · simp [hc, hq]

theorem escapeVal_fold (s : List Char) :
    escapeVal s = s.flatMap (fun c =>
      if c = '\\' then ['\\', '\\'] else if c = '\x22' then ['\\', '\x22'] else [c]) := by
  rw [escapeVal]
  have h1 : pyReplace "\\".data "\\\\".data s =
      s.flatMap (fun c => if c = '\\' then ['\\', '\\'] else [c]) :=
    pyReplace_char '\\' ['\\', '\\'] s
  have h2 : pyReplace "\"".data "\\\"".data
      (s.flatMap (fun c => if c = '\\' then ['\\', '\\'] else [c])) =
      (s.flatMap (fun c => if c = '\\' then ['\\', '\\'] else [c])).flatMap
        (fun c => if c = '\x22' then ['\\', '\x22'] else [c]) :=
    pyReplace_char '\x22' ['\\', '\x22'] _
  rw [h1, h2, flatMap_comp_esc]

theorem mem_escapeVal {c0 : Char} {s : List Char} (h : c0 ∈ escapeVal s) :
    c0 ∈ s ∨ c0 = '\\' ∨ c0 = '\x22' := by
  rw [escapeVal_fold] at h
  obtain ⟨c, hc, hmem⟩ := List.mem_flatMap.mp h
  by_cases h1 : c = '\\'
  · subst h1
    rw [if_pos rfl] at hmem
    simp at hmem
    simp [hmem]
  · by_cases h2 : c = '\x22'
    · subst h2
      rw [if_neg h1, if_pos rfl] at hmem
      simp at hmem
      rcases hmem with h | h
      · simp [h]
      · simp [h]
    · rw [if_neg h1, if_neg h2] at hmem
      simp at hmem
      subst hmem
      exact Or.inl hc

theorem summaryLine_isSummary (s : List Char) : isSummaryLine (summaryLineOf s) = true := by
  rw [isSummaryLine, summaryLineOf]
  apply List.isPrefixOf_iff_prefix.mpr
  refine ⟨" \"[AI] ".data ++ escapeVal s ++ ['\x22'], ?_⟩
  show "summary:".data ++ (" \"[AI] ".data ++ escapeVal s ++ ['\x22']) =
    "summary: \"[AI] ".data ++ escapeVal s ++ ['\x22']
  rw [show (" \"[AI] ".data ++ escapeVal s ++ ['\x22'] : List Char) =
    " \"[AI] ".data ++ (escapeVal s ++ ['\x22']) from by rw [List.append_assoc],
    ← List.append_assoc, ← List.append_assoc]
  rfl

theorem summaryLine_no_newline {s : List Char} (h : '\n' ∉ s) :
    '\n' ∉ summaryLineOf s := by
  rw [summaryLineOf]
  intro hmem
  rcases List.mem_append.mp hmem with hm | hm
  · rcases List.mem_append.mp hm with hm2 | hm2
    · exact absurd hm2 (by decide)
    · rcases mem_escapeVal hm2 with h1 | h1 | h1
      · exact h h1
      · exact absurd h1 (by decide)
      · exact absurd h1 (by decide)
  · exact absurd hm (by decide)

theorem insertAtAnchor_ne_nil (sl : List Char) :
    ∀ (ls : List (List Char)), insertAtAnchor sl ls ≠ [] := by
  intro ls
  cases ls with
  | nil => simp [insertAtAnchor]
  | cons l ls' =>
    rw [insertAtAnchor]
    by_cases ha : isAnchorLine l
    · rw [if_pos ha]; simp
    · rw [if_neg ha]; simp

theorem mem_insertAtAnchor {sl : List Char} : ∀ {ls : List (List Char)} {x : List Char},
    x ∈ insertAtAnchor sl ls → x ∈ ls ∨ x = sl := by
  intro ls
  induction ls with
  | nil =>
    intro x hx
    simp only [insertAtAnchor, List.mem_singleton] at hx
    exact Or.inr hx
  | cons l ls' ih =>
    intro x hx
    rw [insertAtAnchor] at hx
    by_cases ha : isAnchorLine l
    · rw [if_pos ha] at hx
      rcases List.mem_cons.mp hx with h | h
      · exact Or.inr h
      · exact Or.inl h
    · rw [if_neg ha] at hx
      rcases List.mem_cons.mp hx with h | h
      · exact Or.inl (h ▸ List.mem_cons_self _ _)
      · rcases ih h with h2 | h2
        · exact Or.inl (List.mem_cons_of_mem l h2)
        · exact Or.inr h2

theorem insertAtAnchor_self (sl : List Char) : ∀ (ls : List (List Char)),
    sl ∈ insertAtAnchor sl ls := by
  intro ls
  induction ls with
  | nil => simp [insertAtAnchor]
  | cons l ls' ih =>
    rw [insertAtAnchor]
    by_cases ha : isAnchorLine l
    · rw [if_pos ha]; exact List.mem_cons_self _ _
    · rw [if_neg ha]; exact List.mem_cons_of_mem l ih

theorem filter_insertAtAnchor {sl : List Char} (hsl : isSummaryLine sl = true) :
    ∀ (ls : List (List Char)),
      (insertAtAnchor sl ls).filter (fun l => !isSummaryLine l) =
        ls.filter (fun l => !isSummaryLine l) := by
  intro ls
  induction ls with
  | nil => simp [insertAtAnchor, hsl]
  | cons l ls' ih =>
    rw [insertAtAnchor]
    by_cases ha : isAnchorLine l
    · rw [if_pos ha, List.filter_cons, List.filter_cons]
      simp only [hsl, Bool.not_true, Bool.false_eq_true, if_false]
    · rw [if_neg ha, List.filter_cons, List.filter_cons, ih]

theorem filter_map_summaryRepl (sl : List Char) (hsl : isSummaryLine sl = true) :
    ∀ (lines : List (List Char)),
      ((lines.map (fun l => if isSummaryLine l then sl else l)).filter
        (fun l => !isSummaryLine l)) = lines.filter (fun l => !isSummaryLine l) := by
  intro lines
  induction lines with
  | nil => rfl
  | cons l ls ih =>
    rw [List.map_cons, List.filter_cons, List.filter_cons]
    by_cases hl : isSummaryLine l
    · simp only [hl, if_pos, hsl, Bool.not_true, Bool.false_eq_true, if_false]
      simpa [hsl] using ih
    · simp only [hl, if_neg, Bool.not_false, if_true]
      simp only [Bool.not_eq_true'] at hl
      simpa [hl] using ih

theorem update_summary_out (y s : List Char) :
    update_summary_in_yaml y s =
      joinSep ['\n']
        (if (pySplit ['\n'] y).any isSummaryLine then
          (pySplit ['\n'] y).map (fun l => if isSummaryLine l then summaryLineOf s else l)
        else insertAtAnchor (summaryLineOf s)
          ((pySplit ['\n'] y).map
            (fun l => if isSummaryLine l then summaryLineOf s else l))) := rfl

theorem update_lines_eq {y s : List Char} (hs : '\n' ∉ s) :
    pySplit ['\n'] (update_summary_in_yaml y s) =
      (if (pySplit ['\n'] y).any isSummaryLine then
        (pySplit ['\n'] y).map (fun l => if isSummaryLine l then summaryLineOf s else l)
      else insertAtAnchor (summaryLineOf s)
        ((pySplit ['\n'] y).map
          (fun l => if isSummaryLine l then summaryLineOf s else l))) := by
  rw [update_summary_out]
  have hlines : ∀ x ∈ pySplit ['\n'] y, '\n' ∉ x :=
    pySplitGo_char_pieces y.length y (Nat.le_refl _)
  have hmap : ∀ x ∈ (pySplit ['\n'] y).map
      (fun l => if isSummaryLine l then summaryLineOf s else l), '\n' ∉ x := by
    intro x hx
    obtain ⟨l0, hl0, hx0⟩ := List.mem_map.mp hx
    subst hx0
    by_cases h0 : isSummaryLine l0
    · rw [if_pos h0]
      exact summaryLine_no_newline hs
    · rw [if_neg h0]
      exact hlines l0 hl0
  apply pySplit_joinSep_char
  · by_cases hf : (pySplit ['\n'] y).any isSummaryLine
    · rw [if_pos hf]
      have hne := pySplitGo_ne_nil ['\n'] y.length y
      intro hmapnil
      exact hne (List.map_eq_nil_iff.mp hmapnil)
    · rw [if_neg hf]
      exact insertAtAnchor_ne_nil _ _
  · intro l hl
    by_cases hf : (pySplit ['\n'] y).any isSummaryLine
    · rw [if_pos hf] at hl
      exact hmap l hl
    · rw [if_neg hf] at hl
      rcases mem_insertAtAnchor hl with h | h
      · exact hmap l h
      · subst h
        exact summaryLine_no_newline hs

theorem update_summary_idem {y s : List Char} (hs : '\n' ∉ s) :
    update_summary_in_yaml (update_summary_in_yaml y s) s = update_summary_in_yaml y s := by
  set L := pySplit ['\n'] y with hL
  set sl := summaryLineOf s with hsl
  set M := L.map (fun l => if isSummaryLine l then sl else l) with hM
  set out := if L.any isSummaryLine then M else insertAtAnchor sl M with hOut
  have hupd : update_summary_in_yaml y s = joinSep ['\n'] out := update_summary_out y s
  have hsplit2 : pySplit ['\n'] (joinSep ['\n'] out) = out := by
    rw [← hupd]
    exact update_lines_eq hs
  have hslout : sl ∈ out := by
    rw [hOut]
    by_cases hf : L.any isSummaryLine
    · rw [if_pos hf]
      obtain ⟨l0, hl0, h0⟩ := List.any_eq_true.mp hf
      exact List.mem_map.mpr ⟨l0, hl0, by rw [if_pos h0]⟩
    · rw [if_neg hf]
      exact insertAtAnchor_self sl M
  have hrep : ∀ x ∈ out, (if isSummaryLine x then sl else x) = x := by
    have hmapcase : ∀ x ∈ M, (if isSummaryLine x then sl else x) = x := by
      intro x hx
      obtain ⟨l0, _, hx0⟩ := List.mem_map.mp hx
      subst hx0
      by_cases h0 : isSummaryLine l0
      · rw [if_pos h0, if_pos (hsl ▸ summaryLine_isSummary s)]
      · rw [if_neg h0, if_neg h0]
    intro x hx
    rw [hOut] at hx
    by_cases hf : L.any isSummaryLine
    · rw [if_pos hf] at hx
      exact hmapcase x hx
    · rw [if_neg hf] at hx
      rcases mem_insertAtAnchor hx with h | h
      · exact hmapcase x h
      · subst h
        rw [if_pos (hsl ▸ summaryLine_isSummary s)]
  rw [hupd, update_summary_out (joinSep ['\n'] out) s, hsplit2]
  have hany : out.any isSummaryLine = true :=
    List.any_eq_true.mpr ⟨sl, hslout, hsl ▸ summaryLine_isSummary s⟩
  rw [if_pos hany]
  congr 1
  calc out.map (fun l => if isSummaryLine l then summaryLineOf s else l)
      = out.map id := List.map_congr_left (by simpa [hsl] using hrep)
    _ = out := List.map_id out

theorem update_summary_filter {y s : List Char} (hs : '\n' ∉ s) :
    (pySplit ['\n'] (update_summary_in_yaml y s)).filter (fun l => !isSummaryLine l) =
      (pySplit ['\n'] y).filter (fun l => !isSummaryLine l) := by
  rw [update_lines_eq hs]
  by_cases hf : (pySplit ['\n'] y).any isSummaryLine
  · rw [if_pos hf]
    exact filter_map_summaryRepl _ (summaryLine_isSummary s) _
  · rw [if_neg hf, filter_insertAtAnchor (summaryLine_isSummary s)]
    exact filter_map_summaryRepl _ (summaryLine_isSummary s) _

/-! ### The claims -/

/-- Claim C1, counterexample.  The claim states that when no separator from
the list occurs in the text, the hard-cut fallback produces pieces whose
length equals exactly M.  On the spec's own Example B input
(`"abcdefghijklmno"`, M = 10) no default separator occurs, yet the second
hard-cut piece `"klmno"` has length 5 ≠ 10. -/
theorem C1_counterexample :
    (∀ s ∈ defaultSeps, containsSub s "abcdefghijklmno".data = false) ∧
    "klmno".data ∈ split_text_recursively 10 defaultSeps "abcdefghijklmno".data ∧
    ("klmno".data).length ≠ 10 := by decide

/-- Claim C1, amended: for every text T, max size M > 0 and separator list,
every chunk returned by `split_text_recursively` (and hence every chunk
returned by `split_note`) has length at most M; hard-cut pieces are also at
most M (the final piece, and whitespace trimming, may make them shorter
than M). -/
theorem C1_amended (M : Nat) (hM : 0 < M) (T : List Char) (seps : List (List Char)) :
    (∀ c ∈ split_text_recursively M seps T, c.length ≤ M) ∧
    (∀ c ∈ split_note T M, c.length ≤ M) :=
  ⟨fun c hc => split_text_recursively_length_le M seps T c hc,
    fun c hc => split_note_length_le T c hc⟩

theorem C1_amended_witness :
    0 < 10 ∧
    ((∀ c ∈ split_text_recursively 10 defaultSeps "abcdefghijklmno".data, c.length ≤ 10) ∧
      (∀ c ∈ split_note "abcdefghijklmno".data 10, c.length ≤ 10)) :=
  ⟨by decide, C1_amended 10 (by decide) "abcdefghijklmno".data defaultSeps⟩

/-- Claim C2, counterexample.  The claim states that, ignoring injected
breadcrumbs and joiner whitespace, concatenating the chunks reconstructs
the text's character content with no loss.  The sentence separator `". "`
contains a period, which is dropped at chunk boundaries: for
`"aaaa. bbbb"` with M = 4 the chunks are `["aaaa", "bbbb"]`, and even after
ignoring all whitespace the period of the original text is lost. -/
theorem C2_counterexample :
    ((split_text_recursively 4 defaultSeps "aaaa. bbbb".data).flatten).filter
        (fun c => !pyWs c) ≠
      ("aaaa. bbbb".data).filter (fun c => !pyWs c) := by decide

/-- Claim C2, amended: ignoring whitespace and the characters of the
separators themselves (i.e. also the period of `". "`), concatenating the
chunks of `split_text_recursively` reconstructs T's character content with
no loss and no duplication; for `split_note` the same holds relative to the
rendered sections (breadcrumb prefixes included; the raw body when the note
has no sections), since heading lines are consumed by the section
splitter. -/
theorem C2_amended (T : List Char) (M : Nat) (hM : 0 < M) :
    (((split_text_recursively M defaultSeps T).flatten).filter
        (fun c => !(pyWs c || c == '.')) = T.filter (fun c => !(pyWs c || c == '.'))) ∧
    (((split_note T M).flatten).filter (fun c => !(pyWs c || c == '.')) =
      (if (split_by_markdown_headers T [1, 2, 3]).isEmpty then
        T.filter (fun c => !(pyWs c || c == '.'))
      else (((split_by_markdown_headers T [1, 2, 3]).map _section_text).flatten).filter
        (fun c => !(pyWs c || c == '.')))) := by
  have hP : ∀ c, pyWs c = true → (!(pyWs c || c == '.')) = false := fun c h => by simp [h]
  have hdot : (!(pyWs '.' || '.' == '.')) = false := by decide
  exact ⟨split_text_recursively_scrub hP hM defaultSeps (defaultSeps_scrub hP hdot) T,
    split_note_scrub hP hdot hM T⟩

theorem C2_amended_witness :
    0 < 4 ∧
    ((((split_text_recursively 4 defaultSeps "aaaa. bbbb".data).flatten).filter
        (fun c => !(pyWs c || c == '.')) =
      ("aaaa. bbbb".data).filter (fun c => !(pyWs c || c == '.'))) ∧
    (((split_note "aaaa. bbbb".data 4).flatten).filter (fun c => !(pyWs c || c == '.')) =
      (if (split_by_markdown_headers "aaaa. bbbb".data [1, 2, 3]).isEmpty then
        ("aaaa. bbbb".data).filter (fun c => !(pyWs c || c == '.'))
      else (((split_by_markdown_headers "aaaa. bbbb".data [1, 2, 3]).map
          _section_text).flatten).filter (fun c => !(pyWs c || c == '.'))))) :=
  ⟨by decide, C2_amended "aaaa. bbbb".data 4 (by decide)⟩

/-- Claim C3: `split_text_recursively` terminates for every input, and its
recursion depth is bounded by the length of the separator list: running the
splitter with an explicit depth budget of `seps.length + 1` (the initial
call plus one recursive call per dropped separator suffix) never exhausts
the budget and computes the same result.  The hard-cut branch returns
without recursing, and each recursive call receives a strictly shorter
separator list. -/
theorem C3_depth_bound (cs : Nat) (seps : List (List Char)) (text : List Char) :
    splitRecFuel cs (seps.length + 1) seps text =
      some (split_text_recursively cs seps text) :=
  splitRecFuel_eq cs seps (seps.length + 1) (Nat.lt_succ_self _) text

/-- Claim C4: for every input text and (strictly sorted) set of tracked
heading levels, `split_by_markdown_headers` returns exactly the sections
prescribed by the spec: content is the text between tracked headings
(heading lines excluded), sections empty after stripping are dropped, and
each section's headers hold, for every tracked level, the most recent
preceding heading title at that level, where a heading at level L clears
all strictly deeper tracked levels (`sectionsSpec` is built from that
declarative description). -/
theorem C4_sections_spec (text : List Char) (levels : List Nat)
    (hlevels : List.Chain' (· < ·) levels) :
    split_by_markdown_headers text levels = sectionsSpec levels text :=
  split_by_markdown_headers_spec hlevels text

theorem C4_sections_spec_witness :
    List.Chain' (· < ·) [1, 2] ∧
    split_by_markdown_headers "# A\ntext1\n## B\ntext2".data [1, 2] =
      sectionsSpec [1, 2] "# A\ntext1\n## B\ntext2".data :=
  ⟨by simp, C4_sections_spec "# A\ntext1\n## B\ntext2".data [1, 2] (by simp)⟩

/-- Claim C6, counterexample.  The claim states that every string returned
by `split_text_recursively` is non-empty and equal to its own
whitespace-trim, and that `split_note` never returns an empty chunk.  But
the intermediate flush (line 199) appends `sep.join(current).strip()`
without checking emptiness, so `split_text_recursively("\n\nXXXXX", 4)`
contains the empty string; `split_note` filters empty chunks only when the
note has sections, so `split_note("\n\n# AAAAAA", 6)` (a heading-only note)
also contains the empty string; and the short-text base case (line 169)
returns the text untrimmed: `split_text_recursively(" a ", 10) = [" a "]`. -/
theorem C6_counterexample :
    ([] : List Char) ∈ split_text_recursively 4 defaultSeps "\n\nXXXXX".data ∧
    ([] : List Char) ∈ split_note "\n\n# AAAAAA".data 6 ∧
    split_text_recursively 10 defaultSeps " a ".data = [" a ".data] ∧
    pyStrip " a ".data ≠ " a ".data := by decide

/-- Claim C6, amended: when the text is longer than the chunk size (so the
short-text base case, which returns the text unmodified, does not apply),
every string returned by `split_text_recursively` equals its own
whitespace-trim — but may be empty, because the intermediate flush does not
filter; and `split_note` never returns a chunk that strips to empty when
the note has sections (its final filter), though its no-section path
returns the splitter's output unfiltered. -/
theorem C6_amended (cs : Nat) (seps : List (List Char)) (text body : List Char)
    (hlen : cs < text.length) :
    (∀ c ∈ split_text_recursively cs seps text, pyStrip c = c) ∧
    ((split_by_markdown_headers body [1, 2, 3]).isEmpty = false →
      ∀ c ∈ split_note body cs, pyStrip c ≠ []) := by
  refine ⟨split_text_recursively_trimmed cs seps text hlen, ?_⟩
  intro hsec c hc
  rw [split_note] at hc
  simp only at hc
  rw [if_neg (by simp [hsec])] at hc
  obtain ⟨⟨chunks', parts', curLen'⟩, heq⟩ :
      ∃ st, (split_by_markdown_headers body [1, 2, 3]).foldl (split_note_step cs)
        ([], [], 0) = st := ⟨_, rfl⟩
  rw [heq] at hc
  have h2 := (List.mem_filter.mp hc).2
  simp only [Bool.not_eq_true', List.isEmpty_eq_false] at h2
  exact h2

theorem C6_amended_witness :
    4 < ("\n\nXXXXX".data).length ∧
    ((∀ c ∈ split_text_recursively 4 defaultSeps "\n\nXXXXX".data, pyStrip c = c) ∧
    ((split_by_markdown_headers "# A\nhello".data [1, 2, 3]).isEmpty = false →
      ∀ c ∈ split_note "# A\nhello".data 4, pyStrip c ≠ [])) :=
  ⟨by decide, C6_amended 4 defaultSeps "\n\nXXXXX".data "# A\nhello".data (by decide)⟩

/-- Claim C5: for every chunk list of length N > 1 and every completion
order of the concurrent map calls (any permutation of the task indices),
the map step produces exactly the per-chunk cleaned responses in input
order — length N, i-th element generated from the i-th chunk — and the
reduce prompt concatenates those summaries labeled `"Section 1"` ..
`"Section N"` by 1-based original position, independent of the completion
order. -/
theorem C5_map_reduce (gen : List Char → List Char) (order : List Nat)
    (chunks : List (List Char)) (hN : 1 < chunks.length)
    (hperm : order.Perm (List.range chunks.length)) :
    mapStepResults gen order chunks =
      chunks.map (fun c => callOllama gen (pyReplace textSlot c MAP_PROMPT)) ∧
    (mapStepResults gen order chunks).length = chunks.length ∧
    (∀ i, i < chunks.length →
      (mapStepResults gen order chunks).getD i [] =
        callOllama gen (pyReplace textSlot (chunks.getD i []) MAP_PROMPT)) ∧
    summarize_chunks gen order chunks =
      callOllama gen (pyReplace textSlot
        (joinSep "\n\n".data
          ((chunks.map (fun c => callOllama gen (pyReplace textSlot c MAP_PROMPT))).enum.map
            (fun p => "Section ".data ++ (Nat.repr (p.1 + 1)).data ++ ": ".data ++ p.2)))
        COMBINE_PROMPT) := by
  have hmap := @mapStepResults_perm gen order chunks hperm
  refine ⟨hmap, by rw [hmap]; simp, ?_, ?_⟩
  · intro i hi
    rw [hmap, List.getD_eq_getElem?_getD, List.getElem?_map, List.getD_eq_getElem?_getD,
      List.getElem?_eq_getElem hi]
    rfl
  · rw [summarize_chunks, if_neg (by omega), hmap, combinedSummaries]

theorem C5_map_reduce_witness :
    1 < (["c1".data, "c2".data, "c3".data] : List (List Char)).length ∧
    ([2, 0, 1] : List Nat).Perm
      (List.range (["c1".data, "c2".data, "c3".data] : List (List Char)).length) ∧
    (mapStepResults (fun s => s) [2, 0, 1] ["c1".data, "c2".data, "c3".data] =
      (["c1".data, "c2".data, "c3".data] : List (List Char)).map
        (fun c => callOllama (fun s => s) (pyReplace textSlot c MAP_PROMPT)) ∧
    (mapStepResults (fun s => s) [2, 0, 1] ["c1".data, "c2".data, "c3".data]).length =
      (["c1".data, "c2".data, "c3".data] : List (List Char)).length ∧
    (∀ i, i < (["c1".data, "c2".data, "c3".data] : List (List Char)).length →
      (mapStepResults (fun s => s) [2, 0, 1] ["c1".data, "c2".data, "c3".data]).getD i [] =
        callOllama (fun s => s) (pyReplace textSlot
          ((["c1".data, "c2".data, "c3".data] : List (List Char)).getD i []) MAP_PROMPT)) ∧
    summarize_chunks (fun s => s) [2, 0, 1] ["c1".data, "c2".data, "c3".data] =
      callOllama (fun s => s) (pyReplace textSlot
        (joinSep "\n\n".data
          (((["c1".data, "c2".data, "c3".data] : List (List Char)).map
            (fun c => callOllama (fun s => s) (pyReplace textSlot c MAP_PROMPT))).enum.map
            (fun p => "Section ".data ++ (Nat.repr (p.1 + 1)).data ++ ": ".data ++ p.2)))
        COMBINE_PROMPT)) :=
  ⟨by decide, by decide,
    C5_map_reduce (fun s => s) [2, 0, 1] ["c1".data, "c2".data, "c3".data]
      (by decide) (by decide)⟩

/-- Claim C7, counterexample.  The claim states that `clean_llm_output`
strips exactly one matching layer of surrounding quotes, never more than
one layer.  On input `"'hi'"` (a single-quoted value wrapped in double
quotes) the code strips the double-quote layer and then also the
single-quote layer, returning `hi` instead of the one-layer result
`'hi'`. -/
theorem C7_counterexample :
    clean_llm_output "\"\x27hi\x27\"".data = "hi".data ∧
    clean_llm_output "\"\x27hi\x27\"".data ≠ "\x27hi\x27".data := by decide

/-- Claim C7, amended: `clean_llm_output` removes `<think>...</think>`
spans, trims whitespace, then strips at most one layer of surrounding
double quotes followed by at most one layer of surrounding single quotes
(so a double-quoted single-quoted value loses both layers, one of each
kind), and never strips two layers of the same quote character: for a
trimmed, tag-free `inner` whose first character is not a single quote,
wrapping in one double-quote layer cleans back to `inner`, while wrapping
in two double-quote layers keeps the inner layer. -/
theorem C7_amended (inner : List Char) (hws : pyStrip inner = inner)
    (hlt : '<' ∉ inner) (hq : inner.head? ≠ some '\x27') :
    clean_llm_output ('\x22' :: inner ++ ['\x22']) = inner ∧
    clean_llm_output ('\x22' :: '\x22' :: inner ++ ['\x22', '\x22']) = '\x22' :: inner ++ ['\x22'] := by
  have hnothink1 : removeThink ('\x22' :: inner ++ ['\x22']) = '\x22' :: inner ++ ['\x22'] := by
    apply removeThink_no_lt
    intro c hc
    rcases List.mem_cons.mp hc with h | h
    · subst h; decide
    · rcases List.mem_append.mp h with h2 | h2
      · exact fun he => hlt (he ▸ h2)
      · simp only [List.mem_singleton] at h2; subst h2; decide
  have hstrip1 : pyStrip ('\x22' :: inner ++ ['\x22']) = '\x22' :: inner ++ ['\x22'] := by
    apply pyStrip_no_ws_ends
    · intro c hc
      injection hc with hc
      subst hc
      decide
    · intro c hc
      rw [show ('\x22' :: inner ++ ['\x22'] : List Char) = ('\x22' :: inner) ++ ['\x22'] from rfl,
        List.getLast?_concat] at hc
      injection hc with hc
      subst hc
      decide
  have hnothink2 : removeThink ('\x22' :: '\x22' :: inner ++ ['\x22', '\x22']) =
      '\x22' :: '\x22' :: inner ++ ['\x22', '\x22'] := by
    apply removeThink_no_lt
    intro c hc
    rcases List.mem_cons.mp hc with h | h
    · subst h; decide
    · rcases List.mem_cons.mp h with h | h
      · subst h; decide
      · rcases List.mem_append.mp h with h2 | h2
        · exact fun he => hlt (he ▸ h2)
        · simp at h2
          subst h2
          decide
  have hstrip2 : pyStrip ('\x22' :: '\x22' :: inner ++ ['\x22', '\x22']) =
      '\x22' :: '\x22' :: inner ++ ['\x22', '\x22'] := by
    apply pyStrip_no_ws_ends
    · intro c hc
      injection hc with hc
      subst hc
      decide
    · intro c hc
      rw [show ('\x22' :: '\x22' :: inner ++ ['\x22', '\x22'] : List Char) =
        ('\x22' :: '\x22' :: inner ++ ['\x22']) ++ ['\x22'] from by simp, List.getLast?_concat] at hc
      injection hc with hc
      subst hc
      decide
  constructor
  · rw [clean_llm_output, hnothink1, hstrip1, stripQuotePair_wrap,
      stripQuotePair_skip hq, hws]
  · rw [clean_llm_output, hnothink2, hstrip2,
      show ('\x22' :: '\x22' :: inner ++ ['\x22', '\x22'] : List Char) =
        '\x22' :: ('\x22' :: inner ++ ['\x22']) ++ ['\x22'] from by simp,
      stripQuotePair_wrap '\x22' ('\x22' :: inner ++ ['\x22']),
      stripQuotePair_skip (by simp : ('\x22' :: inner ++ ['\x22'] : List Char).head? ≠ some '\x27')]
    apply pyStrip_no_ws_ends
    · intro c hc
      injection hc with hc
      subst hc
      decide
    · intro c hc
      rw [show ('\x22' :: inner ++ ['\x22'] : List Char) = ('\x22' :: inner) ++ ['\x22'] from rfl,
        List.getLast?_concat] at hc
      injection hc with hc
      subst hc
      decide

theorem C7_amended_witness :
    pyStrip "hi".data = "hi".data ∧ '<' ∉ "hi".data ∧
      ("hi".data).head? ≠ some '\x27' ∧
    (clean_llm_output ('\x22' :: "hi".data ++ ['\x22']) = "hi".data ∧
      clean_llm_output ('\x22' :: '\x22' :: "hi".data ++ ['\x22', '\x22']) =
        '\x22' :: "hi".data ++ ['\x22']) :=
  ⟨by decide, by decide, by decide,
    C7_amended "hi".data (by decide) (by decide) (by decide)⟩

/-- Claim C8: if the parsed frontmatter's `summary` field holds a non-empty
value that does not start with the `[AI]` marker prefix, `process_file`
returns a skip result (a constructor distinct from both `err` and `done`),
performs no write (`none` in the write component), and leaves field and
file unchanged; the result is the same for every generation client `gen`,
completion order, chunk size and dry-run flag, which shows that no
generation call influences it. -/
theorem C8_skip (parseYaml : List Char → Option (List (List Char × List Char)))
    (content : List Char) (m : List (List Char × List Char))
    (yamlText body v : List Char)
    (hex : extract_frontmatter_and_body parseYaml content = (some m, yamlText, body))
    (hbody : pyStrip body ≠ [])
    (hv : ymGet "summary".data m = v) (hvne : v ≠ [])
    (hpre : ("[AI]".data.isPrefixOf v) = false) :
    ∀ (gen : List Char → List Char) (order : List Nat) (cs : Nat) (dryRun : Bool),
      process_file gen order parseYaml content cs dryRun =
        (FileOutcome.skipped "Human summary exists (does not start with [AI])".data v,
          none) := by
  intro gen order cs dryRun
  rw [process_file, hex, process_parsed]
  simp only
  rw [if_neg (fun h => hbody (List.isEmpty_iff.mp h)), hv]
  rw [if_pos]
  simp [hpre, hvne]

theorem C8_skip_witness :
    extract_frontmatter_and_body
        (fun _ => some [("summary".data, "Hand-written note".data)])
        "---\nsummary: Hand-written note\n---\nbody".data =
      (some [("summary".data, "Hand-written note".data)],
        "summary: Hand-written note".data, "body".data) ∧
    pyStrip "body".data ≠ [] ∧
    ymGet "summary".data [("summary".data, "Hand-written note".data)] =
      "Hand-written note".data ∧
    "Hand-written note".data ≠ [] ∧
    ("[AI]".data.isPrefixOf "Hand-written note".data) = false ∧
    process_file (fun s => s) []
        (fun _ => some [("summary".data, "Hand-written note".data)])
        "---\nsummary: Hand-written note\n---\nbody".data 50000 false =
      (FileOutcome.skipped "Human summary exists (does not start with [AI])".data
        "Hand-written note".data, none) :=
  ⟨by decide, by decide, by decide, by decide, by decide,
    C8_skip (fun _ => some [("summary".data, "Hand-written note".data)])
      "---\nsummary: Hand-written note\n---\nbody".data
      [("summary".data, "Hand-written note".data)]
      "summary: Hand-written note".data "body".data "Hand-written note".data
      (by decide) (by decide) (by decide) (by decide) (by decide)
      (fun s => s) [] 50000 false⟩

/-- Claim C9, counterexample.  The claim quantifies over every summary
value; for a value containing a newline the field is written across two
physical lines, so re-applying the update re-splits them and duplicates the
spilled tail: updating `"title: x"` twice with `"a\nb"` differs from
updating it once. -/
theorem C9_counterexample :
    update_summary_in_yaml (update_summary_in_yaml "title: x".data "a\nb".data)
        "a\nb".data ≠
      update_summary_in_yaml "title: x".data "a\nb".data := by decide

/-- Claim C9, amended: for every YAML text and every summary value without
an embedded newline, the update leaves every non-`summary:` line unchanged
and in its original relative order, applying the update twice with the same
value yields the same text as applying it once, and quote characters (and
backslashes) in the value are escaped: the written value is the input with
each `\` replaced by `\\` and each `"` by `\"`. -/
theorem C9_amended (y s : List Char) (hs : '\n' ∉ s) :
    update_summary_in_yaml (update_summary_in_yaml y s) s =
      update_summary_in_yaml y s ∧
    (pySplit ['\n'] (update_summary_in_yaml y s)).filter (fun l => !isSummaryLine l) =
      (pySplit ['\n'] y).filter (fun l => !isSummaryLine l) ∧
    escapeVal s = s.flatMap (fun c =>
      if c = '\\' then ['\\', '\\'] else if c = '\x22' then ['\\', '\x22'] else [c]) :=
  ⟨update_summary_idem hs, update_summary_filter hs, escapeVal_fold s⟩

theorem C9_amended_witness :
    '\n' ∉ "a \"b\"".data ∧
    (update_summary_in_yaml (update_summary_in_yaml "title: x\nTOPIC: z".data "a \"b\"".data)
        "a \"b\"".data =
      update_summary_in_yaml "title: x\nTOPIC: z".data "a \"b\"".data ∧
    (pySplit ['\n'] (update_summary_in_yaml "title: x\nTOPIC: z".data "a \"b\"".data)).filter
        (fun l => !isSummaryLine l) =
      (pySplit ['\n'] "title: x\nTOPIC: z".data).filter (fun l => !isSummaryLine l) ∧
    escapeVal "a \"b\"".data = ("a \"b\"".data).flatMap (fun c =>
      if c = '\\' then ['\\', '\\'] else if c = '\x22' then ['\\', '\x22'] else [c])) :=
  ⟨by decide, C9_amended "title: x\nTOPIC: z".data "a \"b\"".data (by decide)⟩

/-- Claim C10: every Section emitted by `split_by_markdown_headers` lists
its breadcrumb levels in strictly increasing order, shallowest first (so
`_section_text`, which renders the titles in that stored order, always
renders the trail shallow-to-deep), even when headings appear out of order
in the document: recording a level removes all strictly deeper tracked
levels, which preserves the sortedness of the tracked mapping at every
step. -/
theorem C10_headers_sorted (text : List Char) (levels : List Nat) :
    ∀ sec ∈ split_by_markdown_headers text levels,
      List.Chain' (· < ·) (sec.headers.map Prod.fst) :=
  split_by_markdown_headers_chain text levels

theorem C10_headers_sorted_witness :
    (⟨"text".data, [(1, "A".data)]⟩ : Section) ∈
      split_by_markdown_headers "### C\n# A\ntext".data [1, 2, 3] ∧
    List.Chain' (· < ·)
      ((⟨"text".data, [(1, "A".data)]⟩ : Section).headers.map Prod.fst) :=
  ⟨by decide, C10_headers_sorted "### C\n# A\ntext".data [1, 2, 3]
    ⟨"text".data, [(1, "A".data)]⟩ (by decide)⟩
